import Mathlib

set_option maxHeartbeats 1000000

/-!
Verification of the `SingleLinkedList` container from
`src/single-linked-list/single-linked-list.h`.

Two shallow embeddings are developed:

* `SLList`: a list-level model.  A container state is the ordered list of
  values stored in the real cells hanging off the sentinel, together with the
  cached `size_` field.  Cursors (`BasicIterator`) are positional: the
  sentinel (`&head_`), the i-th real cell, or `nullptr` (the end position).
  Operations that would dereference a null or dangling pointer in the C++
  source return `none`.

* `SLHeap`: a pointer-level model with an explicit heap (address -> node),
  an allocation counter and an allocation budget (a failing `new` models
  `std::bad_alloc`).  This model is used for the claims about deep-copy
  independence and strong exception safety of copy assignment, which are
  about aliasing and so cannot be stated in the list-level model.
-/

namespace SLList

/-- A container state: `chain` is the ordered list of values held by the real
cells reachable from the sentinel's `next_node` link, `size_` is the cached
element count (the `size_` member of `SingleLinkedList`). -/
structure SLL (α : Type) where
  chain : List α
  size_ : Nat
  deriving DecidableEq, Repr

/-- A cursor (`BasicIterator`) stores a `Node*`: the embedded sentinel
`&head_` (the before-begin position), the i-th real cell of the chain, or
`nullptr` (the end position). -/
inductive Cursor : Type where
  | sentinel : Cursor
  | cell : Nat → Cursor
  | nullp : Cursor
  deriving DecidableEq, Repr

variable {α : Type}

/-- Default constructor `SingleLinkedList()`: `size_ = 0`, sentinel link null. -/
def mkEmpty : SLL α := ⟨[], 0⟩

/-- `SingleLinkedList(std::initializer_list<Type>)`: `size_(values.size())`
followed by `Assign(values.begin(), values.end())`, which builds the chain
in input order, element for element. -/
def ofList (l : List α) : SLL α := ⟨l, l.length⟩

/-- `GetSize()`: returns the cached `size_`. -/
def GetSize (s : SLL α) : Nat := s.size_

/-- `IsEmpty()`: `size_ == 0`. -/
def IsEmpty (s : SLL α) : Bool := s.size_ == 0

/-- The cursor value of the sentinel's `next_node` link: the first real cell
when the chain is non-empty, `nullptr` otherwise. -/
def headNext (s : SLL α) : Cursor :=
  match s.chain with
  | [] => .nullp
  | _ :: _ => .cell 0

/-- `begin()`: `Iterator{head_.next_node}`. -/
def beginC (s : SLL α) : Cursor := headNext s

/-- `end()`: `Iterator{nullptr}`. -/
def endC : Cursor := Cursor.nullp

/-- `before_begin()`: `Iterator{&head_}`. -/
def beforeBegin : Cursor := Cursor.sentinel

/-- Reading `node_->next_node` through a cursor.  `none` models undefined
behavior: dereferencing `nullptr` or a position outside the chain. -/
def nextLink (s : SLL α) : Cursor → Option Cursor
  | .sentinel => some (headNext s)
  | .cell i =>
      if i < s.chain.length then
        some (if i + 1 < s.chain.length then .cell (i + 1) else .nullp)
      else none
  | .nullp => none

/-- `BasicIterator::operator++` (pre-increment): `if (node_) { node_ =
node_->next_node; }`.  A null cursor is left unchanged by the guard;
otherwise the cursor follows the cell's `next_node` link. -/
def incCursor (s : SLL α) (c : Cursor) : Option Cursor :=
  match c with
  | .nullp => some .nullp
  | c => nextLink s c

/-- `BasicIterator::operator++(int)` (post-increment): `auto old_value =
(*this); ++(*this); return old_value;`.  The iterator copy constructor leaks
a spare node when the source cursor references a cell, but always leaves the
copied cursor value identical, so the returned "old" cursor equals the input.
Result: `(cursor after increment, returned old cursor)`. -/
def postInc (s : SLL α) (c : Cursor) : Option (Cursor × Cursor) :=
  (incCursor s c).map (fun c2 => (c2, c))

/-- `PushFront(value)`: `head_.next_node = new Node(value, head_.next_node);
++size_;`. -/
def PushFront (s : SLL α) (v : α) : SLL α := ⟨v :: s.chain, s.size_ + 1⟩

/-- `PopFront()`: `assert(!IsEmpty())`, then unlink and delete the first
cell and decrement `size_`.  `none` models the failed assertion (empty
container) and the null dereference `tmp->next_node` when the cached size is
positive but the chain is empty. -/
def PopFront (s : SLL α) : Option (SLL α) :=
  if s.size_ = 0 then none
  else
    match s.chain with
    | [] => none
    | _ :: rest => some ⟨rest, s.size_ - 1⟩

/-- `InsertAfter(pos, value)`: `new Node(value, pos.node_->next_node)`,
splice it after `pos`, `++size_`, return `Iterator{new_node}`.  `none`
models the null/dangling dereference of `pos.node_` when `pos` is the end
position or outside the chain. -/
def InsertAfter (s : SLL α) (pos : Cursor) (v : α) : Option (SLL α × Cursor) :=
  match pos with
  | .nullp => none
  | .sentinel => some (⟨v :: s.chain, s.size_ + 1⟩, .cell 0)
  | .cell i =>
      if i < s.chain.length then
        some (⟨s.chain.take (i + 1) ++ v :: s.chain.drop (i + 1), s.size_ + 1⟩, .cell (i + 1))
      else none

/-- `EraseAfter(pos)`: `if (!IsEmpty()) { tmp = pos.node_->next_node;
pos.node_->next_node = tmp->next_node; delete tmp; --size_; } return
Iterator{pos.node_->next_node};`.  The final link read happens after the
splice.  `none` models the null dereference of `pos.node_` or of `tmp`
(erasing after the last real cell). -/
def EraseAfter (s : SLL α) (pos : Cursor) : Option (SLL α × Cursor) :=
  if s.size_ = 0 then
    (nextLink s pos).map (fun c => (s, c))
  else
    match pos with
    | .nullp => none
    | .sentinel =>
        match s.chain with
        | [] => none
        | _ :: rest =>
            let s2 : SLL α := ⟨rest, s.size_ - 1⟩
            (nextLink s2 pos).map (fun c => (s2, c))
    | .cell i =>
        if i < s.chain.length then
          if i + 1 < s.chain.length then
            let s2 : SLL α := ⟨s.chain.eraseIdx (i + 1), s.size_ - 1⟩
            (nextLink s2 pos).map (fun c => (s2, c))
          else none
        else none

/-- Free `operator==`: `std::equal(lhs.begin(), lhs.end(), rhs.begin(),
rhs.end())` — the four-iterator overload, true iff the two traversed value
ranges have equal length and pairwise equal elements (element equality is
the element type's `==`). -/
def stdEqual [DecidableEq α] : List α → List α → Bool
  | [], [] => true
  | x :: xs, y :: ys => if x = y then stdEqual xs ys else false
  | _, _ => false

/-- Free `operator==` on containers. -/
def eqSLL [DecidableEq α] (lhs rhs : SLL α) : Bool := stdEqual lhs.chain rhs.chain

/-- `std::lexicographical_compare(lhs.begin(), lhs.end(), rhs.begin(),
rhs.end())`: walk both ranges; the first position where one element is
`<` the other decides; a range that ends first while the other continues is
smaller. -/
def lexCompare [LinearOrder α] : List α → List α → Bool
  | _, [] => false
  | [], _ :: _ => true
  | x :: xs, y :: ys => if x < y then true else if y < x then false else lexCompare xs ys

/-- Free `operator<`: length-first (`GetSize()` comparison), then
`std::lexicographical_compare` over the element ranges. -/
def ltSLL [LinearOrder α] (lhs rhs : SLL α) : Bool :=
  if GetSize lhs < GetSize rhs then true
  else if GetSize rhs < GetSize lhs then false
  else lexCompare lhs.chain rhs.chain

/-- Well-formed container state: the cached `size_` agrees with the length
of the chain (every state produced by the public interface satisfies this;
see the size-invariant theorem). -/
def isWf (s : SLL α) : Prop := s.size_ = s.chain.length

/-- The number of real cells reachable by following `next_node` links from
the sentinel until `nullptr`: in this model the chain lists exactly those
cells, in link order. -/
def countReachable (s : SLL α) : Nat := s.chain.length

/-- Container states reachable by constructing from an ordered element list
(which covers the default constructor via `[]`) and then applying any
sequence of `PushFront`, `PopFront`, `InsertAfter`, `EraseAfter` calls, each
returning a defined result, i.e. made inside its stated precondition. -/
inductive Reach : SLL α → Prop where
  | construct (l : List α) : Reach (ofList l)
  | push {s : SLL α} (v : α) : Reach s → Reach (PushFront s v)
  | pop {s s2 : SLL α} : Reach s → PopFront s = some s2 → Reach s2
  | ins {s s2 : SLL α} {pos : Cursor} {v : α} {c : Cursor} :
      Reach s → InsertAfter s pos v = some (s2, c) → Reach s2
  | er {s s2 : SLL α} {pos c : Cursor} :
      Reach s → EraseAfter s pos = some (s2, c) → Reach s2

/-- Specification-side lexicographic order on equal-length sequences: the
first differing element decides (heads equal in the `tail` rule). -/
inductive LexLt [LT α] : List α → List α → Prop where
  | head {x y : α} {xs ys : List α} : x < y → LexLt (x :: xs) (y :: ys)
  | tail {x : α} {xs ys : List α} : LexLt xs ys → LexLt (x :: xs) (x :: ys)

end SLList

namespace SLHeap

/-- A heap node: `Node` from the source, with `next_node` a possibly-null
pointer (`none` = `nullptr`, `some a` = the address `a`). -/
structure Node (α : Type) where
  value : α
  next_node : Option Nat

/-- The memory state: a partial map from addresses to nodes, an allocation
counter (`new` hands out fresh increasing addresses), and an allocation
budget (number of `new` calls that will still succeed; exhausting it models
`std::bad_alloc`). -/
structure Heap (α : Type) where
  mem : Nat → Option (Node α)
  ctr : Nat
  budget : Nat

/-- A container: the address of its embedded sentinel `head_` (which also
serves as the object's identity, i.e. `this`), and the cached `size_`. -/
structure SLLH where
  sent : Nat
  size_ : Nat
  deriving DecidableEq, Repr

variable {α : Type}

/-- Store a node at an address (a field assignment through a pointer). -/
def writeN (h : Heap α) (a : Nat) (nd : Node α) : Heap α :=
  { h with mem := fun x => if x = a then some nd else h.mem x }

/-- `delete`: deallocate the node at an address. -/
def freeN (h : Heap α) (a : Nat) : Heap α :=
  { h with mem := fun x => if x = a then none else h.mem x }

/-- `new Node(...)`: allocate at the next fresh address, consuming one unit
of budget; a zero budget throws (`.error` carries the unchanged heap). -/
def allocN (h : Heap α) (nd : Node α) : Except (Heap α) (Heap α × Nat) :=
  match h.budget with
  | 0 => .error h
  | b + 1 =>
      .ok ({ mem := fun x => if x = h.ctr then some nd else h.mem x,
             ctr := h.ctr + 1, budget := b }, h.ctr)

/-- Reserve the next fresh address (`h.ctr`) for a container's embedded
sentinel `head_` (`Node()` default-constructed: null link).  This is part of
the container object itself, not a `new` call, so it cannot fail and
consumes no budget. -/
def placeSent (h : Heap α) (nd : Node α) : Heap α :=
  { mem := fun x => if x = h.ctr then some nd else h.mem x,
    ctr := h.ctr + 1, budget := h.budget }

/-- The addresses of the cells reached by following `next_node` links from
a start pointer until `nullptr`, with a fuel bound; `none` when the walk
hits an unallocated address or runs out of fuel. -/
def chainAddrs (h : Heap α) : Option Nat → Nat → Option (List Nat)
  | none, _ => some []
  | some _, 0 => none
  | some a, fuel + 1 =>
      match h.mem a with
      | none => none
      | some nd => (chainAddrs h nd.next_node fuel).map (fun l => a :: l)

/-- The addresses of a container's real cells: follow links from the
sentinel's `next_node`, with the cached size as fuel. -/
def contAddrs (h : Heap α) (X : SLLH) : Option (List Nat) :=
  match h.mem X.sent with
  | none => none
  | some nd => chainAddrs h nd.next_node X.size_

/-- The stored values at a list of addresses. -/
def valsAt (h : Heap α) (l : List Nat) : List (Option α) :=
  l.map (fun a => (h.mem a).map (fun nd => nd.value))

/-- The observable element sequence of a container: the values of its real
cells in chain order (this is exactly the range `begin()..end()` that
`operator==` compares). -/
def toSeq (h : Heap α) (X : SLLH) : Option (List (Option α)) :=
  (contAddrs h X).map (valsAt h)

/-- Well-formed container: its cell addresses are extractable with the
cached size as fuel, the size matches, sentinel and cells are pairwise
distinct, and all live below the allocation counter. -/
def okCont (h : Heap α) (X : SLLH) (as : List Nat) : Prop :=
  contAddrs h X = some as ∧ as.length = X.size_ ∧
    (X.sent :: as).Nodup ∧ ∀ a ∈ X.sent :: as, a < h.ctr

/-- `PushFront(value)`: read `head_.next_node`, allocate
`new Node(value, head_.next_node)`, point `head_.next_node` at it,
increment `size_`. -/
def pushFrontH (h : Heap α) (X : SLLH) (v : α) : Except (Heap α) (Heap α × SLLH) :=
  match h.mem X.sent with
  | none => .error h
  | some sentNd =>
      match allocN h ⟨v, sentNd.next_node⟩ with
      | .error h1 => .error h1
      | .ok (h1, a) =>
          match h1.mem X.sent with
          | none => .error h1
          | some sentNd1 =>
              .ok (writeN h1 X.sent ⟨sentNd1.value, some a⟩, ⟨X.sent, X.size_ + 1⟩)

/-- `PopFront()`: `assert(!IsEmpty())`; `tmp = head_.next_node;
head_.next_node = tmp->next_node; delete tmp; --size_;`.  The empty case
and any null/dangling dereference are `.error`. -/
def popFrontH (h : Heap α) (X : SLLH) : Except (Heap α) (Heap α × SLLH) :=
  if X.size_ = 0 then .error h
  else
    match h.mem X.sent with
    | none => .error h
    | some sentNd =>
        match sentNd.next_node with
        | none => .error h
        | some tmp =>
            match h.mem tmp with
            | none => .error h
            | some tmpNd =>
                .ok (freeN (writeN h X.sent ⟨sentNd.value, tmpNd.next_node⟩) tmp,
                  ⟨X.sent, X.size_ - 1⟩)

/-- `InsertAfter(pos, value)`: `new Node(value, pos.node_->next_node)`;
`pos.node_->next_node = new_node; ++size_;` returns the new cell's
address. -/
def insertAfterH (h : Heap α) (X : SLLH) (pos : Option Nat) (v : α) :
    Except (Heap α) (Heap α × SLLH × Option Nat) :=
  match pos with
  | none => .error h
  | some posA =>
      match h.mem posA with
      | none => .error h
      | some posNd =>
          match allocN h ⟨v, posNd.next_node⟩ with
          | .error h1 => .error h1
          | .ok (h1, a) =>
              match h1.mem posA with
              | none => .error h1
              | some posNd1 =>
                  .ok (writeN h1 posA ⟨posNd1.value, some a⟩, ⟨X.sent, X.size_ + 1⟩, some a)

/-- `EraseAfter(pos)`: guarded by `if (!IsEmpty())`; in the non-empty case
`tmp = pos.node_->next_node; pos.node_->next_node = tmp->next_node;
delete tmp; --size_;`; finally re-reads `pos.node_->next_node` for the
returned cursor. -/
def eraseAfterH (h : Heap α) (X : SLLH) (pos : Option Nat) :
    Except (Heap α) (Heap α × SLLH × Option Nat) :=
  if X.size_ = 0 then
    match pos with
    | none => .error h
    | some posA =>
        match h.mem posA with
        | none => .error h
        | some posNd => .ok (h, X, posNd.next_node)
  else
    match pos with
    | none => .error h
    | some posA =>
        match h.mem posA with
        | none => .error h
        | some posNd =>
            match posNd.next_node with
            | none => .error h
            | some tmp =>
                match h.mem tmp with
                | none => .error h
                | some tmpNd =>
                    match (freeN (writeN h posA ⟨posNd.value, tmpNd.next_node⟩) tmp).mem posA with
                    | none => .error (freeN (writeN h posA ⟨posNd.value, tmpNd.next_node⟩) tmp)
                    | some posNd2 =>
                        .ok (freeN (writeN h posA ⟨posNd.value, tmpNd.next_node⟩) tmp,
                          ⟨X.sent, X.size_ - 1⟩, posNd2.next_node)

/-- `swap(other)`: `std::swap(head_.next_node, other.head_.next_node);
std::swap(size_, other.size_);`. -/
def swapH (h : Heap α) (X Y : SLLH) : Except (Heap α) (Heap α × SLLH × SLLH) :=
  match h.mem X.sent with
  | none => .error h
  | some xNd =>
      match h.mem Y.sent with
      | none => .error h
      | some yNd =>
          .ok (writeN (writeN h X.sent ⟨xNd.value, yNd.next_node⟩) Y.sent
              ⟨yNd.value, xNd.next_node⟩,
            ⟨X.sent, Y.size_⟩, ⟨Y.sent, X.size_⟩)

/-- The loop of `Clear()`: while `head_.next_node` is non-null, unlink and
`delete` the first cell.  Fuel bounds the iteration count (the cached size
is enough for any well-formed chain). -/
def clearLoop : Heap α → Nat → Nat → Except (Heap α) (Heap α)
  | h, sentA, 0 =>
      match h.mem sentA with
      | none => .error h
      | some sentNd =>
          match sentNd.next_node with
          | none => .ok h
          | some _ => .error h
  | h, sentA, fuel + 1 =>
      match h.mem sentA with
      | none => .error h
      | some sentNd =>
          match sentNd.next_node with
          | none => .ok h
          | some tmp =>
              match h.mem tmp with
              | none => .error h
              | some tmpNd =>
                  clearLoop (freeN (writeN h sentA ⟨sentNd.value, tmpNd.next_node⟩) tmp)
                    sentA fuel

/-- `Clear()`: run the deletion loop, then `size_ = 0`. -/
def clearH (h : Heap α) (X : SLLH) : Except (Heap α) (Heap α × SLLH) :=
  match clearLoop h X.sent X.size_ with
  | .error h2 => .error h2
  | .ok h2 => .ok (h2, ⟨X.sent, 0⟩)

/-- The loop of `Assign(first, last)`: for each source cell, allocate
`new Node(*it, nullptr)` and link it after the last built cell (or after the
destination sentinel when nothing is built yet, i.e. when `head_.next_node`
is still null); `++it` re-reads the source cell's link.  Fuel bounds the
iteration count (the source size is enough for a well-formed source). -/
def assignLoop : Heap α → Nat → Option Nat → Option Nat → Nat → Except (Heap α) (Heap α)
  | h, _, _, none, _ => .ok h
  | h, _, _, some _, 0 => .error h
  | h, sentA, last_new, some itA, fuel + 1 =>
      match h.mem itA with
      | none => .error h
      | some itNd =>
          match allocN h ⟨itNd.value, none⟩ with
          | .error h1 => .error h1
          | .ok (h1, nodeA) =>
              match h1.mem sentA with
              | none => .error h1
              | some sentNd =>
                  match sentNd.next_node with
                  | none =>
                      match (writeN h1 sentA ⟨sentNd.value, some nodeA⟩).mem itA with
                      | none => .error (writeN h1 sentA ⟨sentNd.value, some nodeA⟩)
                      | some itNd2 =>
                          assignLoop (writeN h1 sentA ⟨sentNd.value, some nodeA⟩) sentA
                            (some nodeA) itNd2.next_node fuel
                  | some _ =>
                      match last_new with
                      | none => .error h1
                      | some ln =>
                          match h1.mem ln with
                          | none => .error h1
                          | some lnNd =>
                              match (writeN h1 ln ⟨lnNd.value, some nodeA⟩).mem itA with
                              | none => .error (writeN h1 ln ⟨lnNd.value, some nodeA⟩)
                              | some itNd2 =>
                                  assignLoop (writeN h1 ln ⟨lnNd.value, some nodeA⟩) sentA
                                    (some nodeA) itNd2.next_node fuel

/-- Copy constructor `SingleLinkedList(const SingleLinkedList& other)`:
embed a fresh default sentinel (`head_`), set `size_(other.GetSize())`, and
run `Assign(other.begin(), other.end())` building the copy from the source
chain. -/
def copyCtorH [Inhabited α] (h : Heap α) (src : SLLH) : Except (Heap α) (Heap α × SLLH) :=
  match (placeSent h ⟨default, none⟩).mem src.sent with
  | none => .error (placeSent h ⟨default, none⟩)
  | some srcSentNd =>
      match assignLoop (placeSent h ⟨default, none⟩) h.ctr none srcSentNd.next_node
          src.size_ with
      | .error h2 => .error h2
      | .ok h2 => .ok (h2, ⟨h.ctr, src.size_⟩)

/-- Copy assignment `operator=`: `if (this != &rhs) { SingleLinkedList
temp(rhs); swap(temp); }` — object identity is sentinel-address identity;
the temporary is destroyed (its destructor runs `Clear()`) at scope exit.
An exception thrown while building the copy propagates before any statement
that mentions `*this` has run. -/
def operatorAssignH [Inhabited α] (h : Heap α) (dst src : SLLH) :
    Except (Heap α) (Heap α × SLLH) :=
  if dst.sent = src.sent then .ok (h, dst)
  else
    match copyCtorH h src with
    | .error h1 => .error h1
    | .ok (h1, temp) =>
        match swapH h1 dst temp with
        | .error h2 => .error h2
        | .ok (h2, dst2, temp2) =>
            match clearH h2 temp2 with
            | .error h3 => .error h3
            | .ok (h3, _) => .ok (h3, dst2)

/-- Disjointness of two containers in one heap: both are well formed and no
address (sentinel or cell) is shared. -/
def sepInv (h : Heap α) (C D : SLLH) : Prop :=
  ∃ asC asD, okCont h C asC ∧ okCont h D asD ∧
    ∀ a ∈ C.sent :: asC, a ∉ D.sent :: asD

/-- One mutation of the container `D`, made under the stated preconditions:
`PushFront` anywhere, `PopFront`/`InsertAfter`/`EraseAfter` with a defined
(`.ok`) outcome and, for the position-based calls, a position cursor that
belongs to `D` (its sentinel or one of its cells); for `EraseAfter` the
referenced cell must have a successor. -/
inductive MutStep : Heap α × SLLH → Heap α × SLLH → Prop where
  | push {h h2 : Heap α} {D D2 : SLLH} (v : α) :
      pushFrontH h D v = .ok (h2, D2) → MutStep (h, D) (h2, D2)
  | pop {h h2 : Heap α} {D D2 : SLLH} :
      popFrontH h D = .ok (h2, D2) → MutStep (h, D) (h2, D2)
  | ins {h h2 : Heap α} {D D2 : SLLH} {pos c : Option Nat} (v : α) :
      (∃ as a, contAddrs h D = some as ∧ pos = some a ∧ a ∈ D.sent :: as) →
      insertAfterH h D pos v = .ok (h2, D2, c) → MutStep (h, D) (h2, D2)
  | er {h h2 : Heap α} {D D2 : SLLH} {pos c : Option Nat} :
      (∃ as a, contAddrs h D = some as ∧ pos = some a ∧ a ∈ D.sent :: as ∧
        ∃ nd b, h.mem a = some nd ∧ nd.next_node = some b) →
      eraseAfterH h D pos = .ok (h2, D2, c) → MutStep (h, D) (h2, D2)

/-- Concrete example heap for the copy-roundtrip witness: a container at
sentinel address 0 with cells 1 and 2 holding values 10 and 20. -/
def heapC3 : Heap Nat :=
  ⟨fun x =>
    if x = 0 then some ⟨0, some 1⟩
    else if x = 1 then some ⟨10, some 2⟩
    else if x = 2 then some ⟨20, none⟩
    else none, 3, 10⟩

/-- The container living in `heapC3`. -/
def contC3 : SLLH := ⟨0, 2⟩

/-- Concrete example heap for the assignment-safety witness: destination
container at sentinel 0 with one cell (address 1, value 10), source
container at sentinel 2 with two cells (3 and 4, values 7 and 8), and an
allocation budget of 1 so copying the two-cell source fails midway. -/
def heapC7 : Heap Nat :=
  ⟨fun x =>
    if x = 0 then some ⟨0, some 1⟩
    else if x = 1 then some ⟨10, none⟩
    else if x = 2 then some ⟨0, some 3⟩
    else if x = 3 then some ⟨7, some 4⟩
    else if x = 4 then some ⟨8, none⟩
    else none, 5, 1⟩

/-- The destination container living in `heapC7`. -/
def dstC7 : SLLH := ⟨0, 1⟩

/-- The source container living in `heapC7`. -/
def srcC7 : SLLH := ⟨2, 2⟩

/-- The heap left behind by the failing copy of `srcC7` (one node was
allocated and linked into the half-built temporary before the second
allocation threw). -/
def failHeapC7 : Heap Nat :=
  match copyCtorH heapC7 srcC7 with
  | .error h => h
  | .ok x => x.1

end SLHeap

-- ===== HEAP MODEL DEFINITIONS GO ABOVE THIS LINE =====

namespace SLList

variable {α : Type}

theorem stdEqual_iff_eq [DecidableEq α] : ∀ (a b : List α), stdEqual a b = true ↔ a = b
  | [], [] => by simp [stdEqual]
  | [], _ :: _ => by simp [stdEqual]
  | _ :: _, [] => by simp [stdEqual]
  | x :: xs, y :: ys => by
    rw [stdEqual]
    split
    · next hxy => rw [stdEqual_iff_eq xs ys]; simp [hxy]
    · next hxy => simp [hxy]

theorem lexCompare_iff [LinearOrder α] :
    ∀ (a b : List α), a.length = b.length → (lexCompare a b = true ↔ LexLt a b)
  | [], [], _ => by
    constructor
    · intro h; simp [lexCompare] at h
    · intro h; cases h
  | [], _ :: _, h => by simp at h
  | _ :: _, [], h => by simp at h
  | x :: xs, y :: ys, h => by
    have hlen : xs.length = ys.length := by simpa using h
    rcases lt_trichotomy x y with hxy | hxy | hxy
    · rw [lexCompare, if_pos hxy]
      exact ⟨fun _ => LexLt.head hxy, fun _ => rfl⟩
    · subst hxy
      rw [lexCompare, if_neg (lt_irrefl x), if_neg (lt_irrefl x),
        lexCompare_iff xs ys hlen]
      constructor
      · exact LexLt.tail
      · intro hl
        cases hl with
        | head h0 => exact absurd h0 (lt_irrefl x)
        | tail h0 => exact h0
    · rw [lexCompare, if_neg (asymm hxy), if_pos hxy]
      constructor
      · intro h0; simp at h0
      · intro hl
        cases hl with
        | head h0 => exact absurd h0 (asymm hxy)
        | tail h0 => exact absurd hxy (lt_irrefl x)

theorem size_eq_pop {s s2 : SLL α} (h : PopFront s = some s2)
    (ih : s.size_ = s.chain.length) : s2.size_ = s2.chain.length := by
  unfold PopFront at h
  split at h
  · simp at h
  · cases hch : s.chain with
    | nil => rw [hch] at h; simp at h
    | cons x rest =>
      rw [hch] at h
      rw [Option.some_inj] at h
      subst h
      rw [hch] at ih
      simp at ih ⊢
      omega

theorem size_eq_ins {s s2 : SLL α} {pos : Cursor} {v : α} {c : Cursor}
    (h : InsertAfter s pos v = some (s2, c)) (ih : s.size_ = s.chain.length) :
    s2.size_ = s2.chain.length := by
  cases pos with
  | nullp => simp [InsertAfter] at h
  | sentinel =>
    simp only [InsertAfter, Option.some_inj, Prod.mk.injEq] at h
    obtain ⟨rfl, rfl⟩ := h
    simp
    omega
  | cell i =>
    simp only [InsertAfter] at h
    split at h
    · next hik =>
      simp only [Option.some_inj, Prod.mk.injEq] at h
      obtain ⟨rfl, rfl⟩ := h
      simp [List.length_take, List.length_drop]
      omega
    · simp at h

theorem size_eq_er {s s2 : SLL α} {pos c : Cursor}
    (h : EraseAfter s pos = some (s2, c)) (ih : s.size_ = s.chain.length) :
    s2.size_ = s2.chain.length := by
  unfold EraseAfter at h
  split at h
  · cases hnl : nextLink s pos with
    | none => rw [hnl] at h; simp at h
    | some c0 =>
      rw [hnl] at h
      simp at h
      obtain ⟨rfl, rfl⟩ := h
      exact ih
  · next hsz =>
    cases pos with
    | nullp => simp at h
    | sentinel =>
      cases hch : s.chain with
      | nil => rw [hch] at h; simp at h
      | cons x rest =>
        rw [hch] at h
        simp only [nextLink, Option.map_some', Option.some_inj, Prod.mk.injEq] at h
        obtain ⟨rfl, rfl⟩ := h
        rw [hch] at ih
        simp at ih ⊢
        omega
    | cell i =>
      simp only [nextLink] at h
      split at h
      · next h1 =>
        split at h
        · next h2 =>
          split at h
          · next h3 =>
            simp only [Option.map_some', Option.some_inj, Prod.mk.injEq] at h
            obtain ⟨rfl, rfl⟩ := h
            simp [List.length_eraseIdx, h2]
            omega
          · simp at h
        · simp at h
      · simp at h

end SLList

section ClaimTheorems

open SLList

/-- C1: for every container state reachable by any sequence of `PushFront`,
`PopFront`, `InsertAfter` and `EraseAfter` calls made under their stated
preconditions (starting from a constructed container), `GetSize()` equals
the number of real cells reachable by following links from the sentinel to
the end position. -/
theorem C1_size_invariant {α : Type} {s : SLL α} (h : Reach s) :
    GetSize s = countReachable s := by
  induction h with
  | construct l => rfl
  | push v _ ih =>
    simp only [GetSize, countReachable, PushFront, List.length_cons] at ih ⊢
    omega
  | pop _ h2 ih => exact size_eq_pop h2 ih
  | ins _ h2 ih => exact size_eq_ins h2 ih
  | er _ h2 ih => exact size_eq_er h2 ih

/-- Witness for C1: a concrete reachable state (construct `{1,2}`, then
`PushFront 5`) on which `GetSize` equals the reachable-cell count. -/
theorem C1_size_invariant_w :
    Reach (PushFront (ofList [(1 : Nat), 2]) 5) ∧
      GetSize (PushFront (ofList [(1 : Nat), 2]) 5) =
        countReachable (PushFront (ofList [(1 : Nat), 2]) 5) :=
  ⟨Reach.push 5 (Reach.construct [1, 2]),
    C1_size_invariant (Reach.push 5 (Reach.construct [1, 2]))⟩

/-- C2: `operator<` is length-first: `a < b` iff `a` is shorter, or the
lengths are equal and the element sequences compare lexicographically with
the first differing element deciding; in particular `{1,2} < {1,2,3}`,
`{5} < {1,2}` and `{1,2} < {1,3}`. -/
theorem C2_lexicographic_lt :
    (∀ (α : Type) [LinearOrder α] (a b : SLL α), isWf a → isWf b →
        (ltSLL a b = true ↔
          (a.chain.length < b.chain.length ∨
            (a.chain.length = b.chain.length ∧ LexLt a.chain b.chain)))) ∧
    ltSLL (ofList [(1 : Nat), 2]) (ofList [1, 2, 3]) = true ∧
    ltSLL (ofList [(5 : Nat)]) (ofList [1, 2]) = true ∧
    ltSLL (ofList [(1 : Nat), 2]) (ofList [1, 3]) = true := by
  refine ⟨?_, by decide, by decide, by decide⟩
  intro α _ a b ha hb
  unfold isWf at ha hb
  unfold ltSLL GetSize
  rw [ha, hb]
  rcases Nat.lt_trichotomy a.chain.length b.chain.length with h | h | h
  · simp [h]
  · rw [if_neg (by omega), if_neg (by omega), lexCompare_iff _ _ h]
    constructor
    · intro hl; exact Or.inr ⟨h, hl⟩
    · rintro (hlt | ⟨_, hl⟩)
      · omega
      · exact hl
  · rw [if_neg (by omega), if_pos h]
    constructor
    · intro h0; simp at h0
    · rintro (hlt | ⟨heq, _⟩) <;> omega

/-- Witness for C2: the ordering characterization instantiated at the
concrete containers `{5}` and `{1,2}`, with the well-formedness hypotheses
discharged. -/
theorem C2_lexicographic_lt_w :
    isWf (ofList [(5 : Nat)]) ∧ isWf (ofList [(1 : Nat), 2]) ∧
      (ltSLL (ofList [(5 : Nat)]) (ofList [(1 : Nat), 2]) = true ↔
        ((ofList [(5 : Nat)]).chain.length < (ofList [(1 : Nat), 2]).chain.length ∨
          ((ofList [(5 : Nat)]).chain.length = (ofList [(1 : Nat), 2]).chain.length ∧
            LexLt (ofList [(5 : Nat)]).chain (ofList [(1 : Nat), 2]).chain))) :=
  ⟨rfl, rfl, C2_lexicographic_lt.1 Nat (ofList [(5 : Nat)]) (ofList [(1 : Nat), 2]) rfl rfl⟩

/-- C4: `InsertAfter(before_begin(), v)` produces exactly the state produced
by `PushFront(v)` (same element sequence, same size) and returns a cursor to
the new first cell. -/
theorem C4_insert_after_before_begin {α : Type} (s : SLL α) (v : α) :
    InsertAfter s beforeBegin v = some (PushFront s v, Cursor.cell 0) := rfl

/-- C5: `PopFront()` immediately after `PushFront(v)` restores the prior
container state: the prior size and the prior element sequence. -/
theorem C5_push_pop_inverse {α : Type} (s : SLL α) (v : α) :
    PopFront (PushFront s v) = some s := by
  simp [PopFront, PushFront]

/-- C6 counterexample: on the one-element container `{1}`, `EraseAfter(pos)`
with `pos` referencing the last real cell dereferences the null successor
(`tmp->next_node` with `tmp == nullptr`), modelled as `none`; it does not
return a cursor equal to `end()`. -/
theorem C6_erase_after_last_cex :
    EraseAfter (ofList [(1 : Nat)]) (Cursor.cell 0) = none := by decide

/-- C6 amended: for every non-empty well-formed container, `EraseAfter(pos)`
where the cell immediately after `pos` is the last real cell (so `pos` is
`before_begin()` for a one-element chain, or the second-to-last cell)
returns a cursor equal to `end()`. -/
theorem C6_erase_last_returns_end {α : Type} (s : SLL α) (pos : Cursor) (hwf : isWf s)
    (hpos : (pos = Cursor.sentinel ∧ s.chain.length = 1) ∨
      (∃ i, pos = Cursor.cell i ∧ i + 2 = s.chain.length)) :
    ∃ s2, EraseAfter s pos = some (s2, Cursor.nullp) := by
  unfold isWf at hwf
  rcases hpos with ⟨rfl, hlen⟩ | ⟨i, rfl, hlen⟩
  · rcases List.length_eq_one.mp hlen with ⟨x, hx⟩
    refine ⟨⟨[], s.size_ - 1⟩, ?_⟩
    unfold EraseAfter
    rw [if_neg (by omega)]
    rw [hx]
    simp [nextLink, headNext]
  · have h1 : i < s.chain.length := by omega
    have h2 : i + 1 < s.chain.length := by omega
    refine ⟨⟨s.chain.eraseIdx (i + 1), s.size_ - 1⟩, ?_⟩
    unfold EraseAfter
    rw [if_neg (by omega)]
    have hlen2 : (s.chain.eraseIdx (i + 1)).length = i + 1 := by
      simp [List.length_eraseIdx, h2]
      omega
    simp only [if_pos h1, if_pos h2]
    simp [nextLink, hlen2]

/-- Witness for C6 amended: erasing after the first cell of `{1,2}` (whose
successor is the last cell) returns the end cursor. -/
theorem C6_erase_last_returns_end_w :
    isWf (ofList [(1 : Nat), 2]) ∧
      ∃ s2, EraseAfter (ofList [(1 : Nat), 2]) (Cursor.cell 0) = some (s2, Cursor.nullp) :=
  ⟨rfl, C6_erase_last_returns_end (ofList [(1 : Nat), 2]) (Cursor.cell 0) rfl
    (Or.inr ⟨0, rfl, rfl⟩)⟩

/-- C8: `operator==` holds iff the two containers have the same length and
elementwise-equal values in order; in particular `{1,2,3} == {1,2,3}` and
`{} == {}` hold while `{1,2,3} == {1,2}` does not. -/
theorem C8_equality_iff :
    (∀ (α : Type) [DecidableEq α] (a b : SLL α),
        eqSLL a b = true ↔
          (a.chain.length = b.chain.length ∧ ∀ i, a.chain.get? i = b.chain.get? i)) ∧
    eqSLL (ofList [(1 : Nat), 2, 3]) (ofList [1, 2, 3]) = true ∧
    eqSLL (ofList [(1 : Nat), 2, 3]) (ofList [1, 2]) = false ∧
    eqSLL (ofList ([] : List Nat)) (ofList []) = true := by
  refine ⟨?_, by decide, by decide, by decide⟩
  intro α _ a b
  rw [eqSLL, stdEqual_iff_eq]
  constructor
  · intro h; rw [h]; exact ⟨rfl, fun _ => rfl⟩
  · rintro ⟨hlen, hget⟩
    exact List.ext_get?_iff.mpr hget

/-- C9: `operator++` is total: a cursor at the end position is left at the
end position by both pre- and post-increment (the `if (node_)` guard), a
cursor at the sentinel moves to the first cell (or to end when the chain is
empty), and a cursor at a valid real cell moves to the cell's successor (or
to end when it is the last cell). -/
theorem C9_increment_total :
    ∀ (α : Type) (s : SLL α),
      (incCursor s Cursor.nullp = some Cursor.nullp ∧
        postInc s Cursor.nullp = some (Cursor.nullp, Cursor.nullp)) ∧
      incCursor s Cursor.sentinel = some (beginC s) ∧
      ∀ i, i < s.chain.length →
        incCursor s (Cursor.cell i) =
          some (if i + 1 < s.chain.length then Cursor.cell (i + 1) else Cursor.nullp) := by
  intro α s
  refine ⟨⟨rfl, rfl⟩, rfl, ?_⟩
  intro i hi
  simp [incCursor, nextLink, hi]

/-- Witness for C9: incrementing a cursor at the first cell of `{7,8}` moves
it to the second cell. -/
theorem C9_increment_total_w :
    0 < (ofList [(7 : Nat), 8]).chain.length ∧
      incCursor (ofList [(7 : Nat), 8]) (Cursor.cell 0) = some (Cursor.cell 1) := by
  refine ⟨by decide, ?_⟩
  have h := (C9_increment_total Nat (ofList [(7 : Nat), 8])).2.2 0 (by decide)
  simpa using h

/-- C10: `EraseAfter(before_begin())` on an empty container is a guarded
no-op: the `if (!IsEmpty())` test skips the erase, the container state is
unchanged (empty, size 0), and the returned cursor equals `end()`. -/
theorem C10_erase_empty_noop (α : Type) :
    EraseAfter (mkEmpty : SLL α) beforeBegin = some (mkEmpty, endC) := rfl

end ClaimTheorems

namespace SLHeap

variable {α : Type}

theorem writeN_mem (h : Heap α) (a : Nat) (nd : Node α) (x : Nat) :
    (writeN h a nd).mem x = if x = a then some nd else h.mem x := rfl

theorem freeN_mem (h : Heap α) (a : Nat) (x : Nat) :
    (freeN h a).mem x = if x = a then none else h.mem x := rfl

theorem allocN_ok {h h1 : Heap α} {nd : Node α} {a : Nat}
    (hal : allocN h nd = .ok (h1, a)) :
    a = h.ctr ∧ h1.ctr = h.ctr + 1 ∧
      (∀ x, h1.mem x = if x = h.ctr then some nd else h.mem x) ∧
      h.budget = h1.budget + 1 := by
  unfold allocN at hal
  cases hb : h.budget with
  | zero => rw [hb] at hal; exact absurd hal (by simp)
  | succ b =>
    rw [hb] at hal
    rw [Except.ok.injEq, Prod.mk.injEq] at hal
    obtain ⟨rfl, rfl⟩ := hal
    exact ⟨rfl, rfl, fun x => rfl, rfl⟩

theorem chainAddrs_none (h : Heap α) (f : Nat) : chainAddrs h none f = some [] := by
  cases f <;> rfl

theorem chainAddrs_some_zero (h : Heap α) (a : Nat) : chainAddrs h (some a) 0 = none := rfl

theorem chainAddrs_succ_none {h : Heap α} {a : Nat} (hma : h.mem a = none) (f : Nat) :
    chainAddrs h (some a) (f + 1) = none := by
  rw [chainAddrs, hma]

theorem chainAddrs_succ_some {h : Heap α} {a : Nat} {nd : Node α}
    (hma : h.mem a = some nd) (f : Nat) :
    chainAddrs h (some a) (f + 1) =
      (chainAddrs h nd.next_node f).map (fun l => a :: l) := by
  rw [chainAddrs, hma]

theorem chainAddrs_start_nil {h : Heap α} {c : Option Nat} {fuel : Nat}
    (hc : chainAddrs h c fuel = some []) : c = none := by
  cases c with
  | none => rfl
  | some a =>
    cases fuel with
    | zero => rw [chainAddrs_some_zero] at hc; exact absurd hc (by simp)
    | succ f =>
      cases hma : h.mem a with
      | none => rw [chainAddrs_succ_none hma] at hc; exact absurd hc (by simp)
      | some nd =>
        rw [chainAddrs_succ_some hma] at hc
        cases hr : chainAddrs h nd.next_node f with
        | none => rw [hr] at hc; simp at hc
        | some l => rw [hr] at hc; simp at hc

theorem chainAddrs_start_cons {h : Heap α} {c : Option Nat} {fuel : Nat} {b : Nat}
    {rest : List Nat} (hc : chainAddrs h c fuel = some (b :: rest)) :
    c = some b ∧ ∃ f2 nd, fuel = f2 + 1 ∧ h.mem b = some nd ∧
      chainAddrs h nd.next_node f2 = some rest := by
  cases c with
  | none => rw [chainAddrs_none] at hc; simp at hc
  | some a =>
    cases fuel with
    | zero => rw [chainAddrs_some_zero] at hc; exact absurd hc (by simp)
    | succ f =>
      cases hma : h.mem a with
      | none => rw [chainAddrs_succ_none hma] at hc; exact absurd hc (by simp)
      | some nd =>
        rw [chainAddrs_succ_some hma] at hc
        cases hr : chainAddrs h nd.next_node f with
        | none => rw [hr] at hc; simp at hc
        | some l =>
          rw [hr] at hc
          simp at hc
          obtain ⟨rfl, rfl⟩ := hc
          exact ⟨rfl, f, nd, rfl, hma, hr⟩

theorem chainAddrs_congr {h h2 : Heap α} :
    ∀ {fuel : Nat} {c : Option Nat} {l : List Nat},
      chainAddrs h c fuel = some l → (∀ a ∈ l, h2.mem a = h.mem a) →
      chainAddrs h2 c fuel = some l := by
  intro fuel
  induction fuel with
  | zero =>
    intro c l hc hag
    cases c with
    | none => rw [chainAddrs_none] at hc ⊢; exact hc
    | some a => rw [chainAddrs_some_zero] at hc; exact absurd hc (by simp)
  | succ f ih =>
    intro c l hc hag
    cases c with
    | none => rw [chainAddrs_none] at hc ⊢; exact hc
    | some a =>
      cases hma : h.mem a with
      | none => rw [chainAddrs_succ_none hma] at hc; exact absurd hc (by simp)
      | some nd =>
        rw [chainAddrs_succ_some hma] at hc
        cases hr : chainAddrs h nd.next_node f with
        | none => rw [hr] at hc; simp at hc
        | some l2 =>
          rw [hr] at hc
          simp at hc
          subst hc
          have hma2 : h2.mem a = some nd := by rw [hag a (by simp), hma]
          rw [chainAddrs_succ_some hma2,
            ih hr (fun x hx => hag x (List.mem_cons_of_mem a hx))]
          simp

theorem chainAddrs_mono {h : Heap α} :
    ∀ {fuel : Nat} {fuel2 : Nat} {c : Option Nat} {l : List Nat},
      chainAddrs h c fuel = some l → fuel ≤ fuel2 → chainAddrs h c fuel2 = some l := by
  intro fuel
  induction fuel with
  | zero =>
    intro fuel2 c l hc _
    cases c with
    | none => rw [chainAddrs_none] at hc ⊢; exact hc
    | some a => rw [chainAddrs_some_zero] at hc; exact absurd hc (by simp)
  | succ f ih =>
    intro fuel2 c l hc hle
    cases c with
    | none => rw [chainAddrs_none] at hc ⊢; exact hc
    | some a =>
      cases fuel2 with
      | zero => omega
      | succ f2 =>
        cases hma : h.mem a with
        | none => rw [chainAddrs_succ_none hma] at hc; exact absurd hc (by simp)
        | some nd =>
          rw [chainAddrs_succ_some hma] at hc
          cases hr : chainAddrs h nd.next_node f with
          | none => rw [hr] at hc; simp at hc
          | some l2 =>
            rw [hr] at hc
            rw [chainAddrs_succ_some hma, ih hr (by omega)]
            exact hc

theorem chainAddrs_exact {h : Heap α} :
    ∀ {fuel : Nat} {c : Option Nat} {l : List Nat},
      chainAddrs h c fuel = some l → chainAddrs h c l.length = some l := by
  intro fuel
  induction fuel with
  | zero =>
    intro c l hc
    cases c with
    | none => rw [chainAddrs_none] at hc; rw [← Option.some_inj.mp hc, chainAddrs_none]
    | some a => rw [chainAddrs_some_zero] at hc; exact absurd hc (by simp)
  | succ f ih =>
    intro c l hc
    cases c with
    | none => rw [chainAddrs_none] at hc; rw [← Option.some_inj.mp hc, chainAddrs_none]
    | some a =>
      cases hma : h.mem a with
      | none => rw [chainAddrs_succ_none hma] at hc; exact absurd hc (by simp)
      | some nd =>
        rw [chainAddrs_succ_some hma] at hc
        cases hr : chainAddrs h nd.next_node f with
        | none => rw [hr] at hc; simp at hc
        | some l2 =>
          rw [hr] at hc
          simp at hc
          subst hc
          rw [List.length_cons, chainAddrs_succ_some hma, ih hr]
          simp

theorem chainAddrs_det {h : Heap α} :
    ∀ {f1 f2 : Nat} {c : Option Nat} {l1 l2 : List Nat},
      chainAddrs h c f1 = some l1 → chainAddrs h c f2 = some l2 → l1 = l2 := by
  intro f1 f2 c l1 l2 h1 h2
  have e1 := chainAddrs_exact h1
  have e2 := chainAddrs_exact h2
  rcases Nat.le_total l1.length l2.length with hle | hle
  · rw [chainAddrs_mono e1 hle] at e2
    exact Option.some_inj.mp e2
  · rw [chainAddrs_mono e2 hle] at e1
    exact (Option.some_inj.mp e1).symm

theorem chainAddrs_mem_tail {h : Heap α} :
    ∀ {fuel : Nat} {c : Option Nat} {l : List Nat}, chainAddrs h c fuel = some l →
      ∀ a ∈ l, ∃ f2 l2, chainAddrs h (some a) f2 = some l2 ∧ l2.length ≤ l.length := by
  intro fuel
  induction fuel with
  | zero =>
    intro c l hc a ha
    cases c with
    | none =>
      rw [chainAddrs_none] at hc
      rw [← Option.some_inj.mp hc] at ha
      simp at ha
    | some b => rw [chainAddrs_some_zero] at hc; exact absurd hc (by simp)
  | succ f ih =>
    intro c l hc a ha
    cases c with
    | none =>
      rw [chainAddrs_none] at hc
      rw [← Option.some_inj.mp hc] at ha
      simp at ha
    | some b =>
      cases hma : h.mem b with
      | none => rw [chainAddrs_succ_none hma] at hc; exact absurd hc (by simp)
      | some nd =>
        rw [chainAddrs_succ_some hma] at hc
        cases hr : chainAddrs h nd.next_node f with
        | none => rw [hr] at hc; simp at hc
        | some l2 =>
          rw [hr] at hc
          simp at hc
          subst hc
          rcases List.mem_cons.mp ha with rfl | hat
          · refine ⟨f + 1, a :: l2, ?_, le_refl _⟩
            rw [chainAddrs_succ_some hma, hr]
            simp
          · rcases ih hr a hat with ⟨f2, l3, hf2, hlen⟩
            refine ⟨f2, l3, hf2, ?_⟩
            simp
            omega

theorem chainAddrs_nodup {h : Heap α} :
    ∀ {fuel : Nat} {c : Option Nat} {l : List Nat},
      chainAddrs h c fuel = some l → l.Nodup := by
  intro fuel
  induction fuel with
  | zero =>
    intro c l hc
    cases c with
    | none => rw [chainAddrs_none] at hc; rw [← Option.some_inj.mp hc]; simp
    | some a => rw [chainAddrs_some_zero] at hc; exact absurd hc (by simp)
  | succ f ih =>
    intro c l hc
    cases c with
    | none => rw [chainAddrs_none] at hc; rw [← Option.some_inj.mp hc]; simp
    | some a =>
      cases hma : h.mem a with
      | none => rw [chainAddrs_succ_none hma] at hc; exact absurd hc (by simp)
      | some nd =>
        rw [chainAddrs_succ_some hma] at hc
        cases hr : chainAddrs h nd.next_node f with
        | none => rw [hr] at hc; simp at hc
        | some l2 =>
          rw [hr] at hc
          simp at hc
          subst hc
          refine List.nodup_cons.mpr ⟨?_, ih hr⟩
          intro hmem
          rcases chainAddrs_mem_tail hr a hmem with ⟨f2, l3, hf2, hlen⟩
          have hfull : chainAddrs h (some a) (f + 1) = some (a :: l2) := by
            rw [chainAddrs_succ_some hma, hr]
            simp
          have : l3 = a :: l2 := chainAddrs_det hf2 hfull
          subst this
          simp at hlen

theorem chainAddrs_split {h : Heap α} :
    ∀ (l1 : List Nat) {fuel : Nat} {c : Option Nat} {a : Nat} {l2 : List Nat},
      chainAddrs h c fuel = some (l1 ++ a :: l2) →
      ∃ nd f2, h.mem a = some nd ∧
        nd.next_node = (match l2 with | [] => none | b :: _ => some b) ∧
        chainAddrs h nd.next_node f2 = some l2 := by
  intro l1
  induction l1 with
  | nil =>
    intro fuel c a l2 hc
    rcases chainAddrs_start_cons hc with ⟨rfl, f2, nd, rfl, hma, hr⟩
    refine ⟨nd, f2, hma, ?_, hr⟩
    cases l2 with
    | nil => exact chainAddrs_start_nil hr
    | cons b rest => exact (chainAddrs_start_cons hr).1
  | cons x l1 ih =>
    intro fuel c a l2 hc
    rcases chainAddrs_start_cons (by simpa using hc) with ⟨rfl, f2, nd, rfl, hma, hr⟩
    exact ih hr

theorem valsAt_congr {h h2 : Heap α} {l : List Nat}
    (hag : ∀ a ∈ l, h2.mem a = h.mem a) : valsAt h2 l = valsAt h l := by
  unfold valsAt
  induction l with
  | nil => rfl
  | cons x xs ih =>
    simp only [List.map_cons]
    rw [hag x (by simp), ih (fun a ha => hag a (List.mem_cons_of_mem x ha))]

theorem toSeq_congr {h h2 : Heap α} {X : SLLH} {as : List Nat}
    (hc : contAddrs h X = some as)
    (hag : ∀ a ∈ X.sent :: as, h2.mem a = h.mem a) :
    contAddrs h2 X = some as ∧ toSeq h2 X = toSeq h X := by
  have hsent : h2.mem X.sent = h.mem X.sent := hag _ (by simp)
  unfold contAddrs at hc
  cases hms : h.mem X.sent with
  | none => rw [hms] at hc; exact absurd hc (by simp)
  | some nd =>
    rw [hms] at hc
    have h2c := chainAddrs_congr hc (fun a ha => hag a (List.mem_cons_of_mem _ ha))
    have hco : contAddrs h2 X = some as := by
      unfold contAddrs
      rw [hsent, hms]
      exact h2c
    refine ⟨hco, ?_⟩
    unfold toSeq
    rw [hco]
    have hcc : contAddrs h X = some as := by unfold contAddrs; rw [hms]; exact hc
    rw [hcc]
    simp [valsAt_congr (fun a ha => hag a (List.mem_cons_of_mem _ ha))]

end SLHeap

namespace SLHeap

variable {α : Type}

theorem getLast?_mem_of_eq : ∀ (l : List Nat) (a : Nat), l.getLast? = some a → a ∈ l := by
  intro l
  induction l with
  | nil => intro a h; simp at h
  | cons x l ih =>
    intro a h
    cases l with
    | nil =>
      simp at h
      simp [h]
    | cons y l2 =>
      rw [List.getLast?_cons_cons] at h
      exact List.mem_cons_of_mem x (ih a h)

theorem chainAddrs_splice {h h2 : Heap α} {posA newA : Nat} {posNd posNd2 newNd : Node α}
    (hpos : h.mem posA = some posNd)
    (h2pos : h2.mem posA = some posNd2)
    (h2posNx : posNd2.next_node = some newA)
    (h2new : h2.mem newA = some newNd)
    (h2newNx : newNd.next_node = posNd.next_node)
    (hagree : ∀ x, x ≠ posA → x ≠ newA → h2.mem x = h.mem x) :
    ∀ (l1 : List Nat) {c : Option Nat} {f : Nat} {l2 : List Nat},
      chainAddrs h c f = some (l1 ++ posA :: l2) →
      (l1 ++ posA :: l2).Nodup →
      newA ∉ l1 ++ posA :: l2 →
      chainAddrs h2 c (f + 1) = some (l1 ++ posA :: newA :: l2) := by
  intro l1
  induction l1 with
  | nil =>
    intro c f l2 hc hnd hnew
    simp only [List.nil_append] at hc hnd hnew ⊢
    rcases chainAddrs_start_cons hc with ⟨rfl, f2, nd, rfl, hma, hr⟩
    have hnd1 : posNd = nd := Option.some_inj.mp (hpos.symm.trans hma)
    subst hnd1
    rw [chainAddrs_succ_some h2pos, h2posNx, chainAddrs_succ_some h2new, h2newNx]
    have hcg : chainAddrs h2 posNd.next_node f2 = some l2 := by
      refine chainAddrs_congr hr ?_
      intro x hx
      refine hagree x ?_ ?_
      · intro hEq
        subst hEq
        exact (List.nodup_cons.mp hnd).1 hx
      · intro hEq
        subst hEq
        exact hnew (List.mem_cons_of_mem _ hx)
    rw [hcg]
    simp
  | cons x l1 ih =>
    intro c f l2 hc hnd hnew
    rw [List.cons_append] at hc hnd hnew
    rcases chainAddrs_start_cons hc with ⟨rfl, f2, ndx, rfl, hmx, hr⟩
    have hxpos : x ≠ posA := by
      intro hEq
      subst hEq
      exact (List.nodup_cons.mp hnd).1 (by simp)
    have hxnew : x ≠ newA := by
      intro hEq
      exact hnew (by rw [hEq]; exact List.mem_cons_self _ _)
    have hmx2 : h2.mem x = some ndx := by rw [hagree x hxpos hxnew, hmx]
    rw [chainAddrs_succ_some hmx2,
      ih hr (List.nodup_cons.mp hnd).2 (fun hm => hnew (List.mem_cons_of_mem _ hm))]
    simp

theorem chainAddrs_remove {h h2 : Heap α} {posA tmpA : Nat} {posNd posNd2 tmpNd : Node α}
    (hpos : h.mem posA = some posNd)
    (htmp : h.mem tmpA = some tmpNd)
    (h2pos : h2.mem posA = some posNd2)
    (h2posNx : posNd2.next_node = tmpNd.next_node)
    (hagree : ∀ x, x ≠ posA → x ≠ tmpA → h2.mem x = h.mem x) :
    ∀ (l1 : List Nat) {c : Option Nat} {f : Nat} {l2 : List Nat},
      chainAddrs h c f = some (l1 ++ posA :: tmpA :: l2) →
      (l1 ++ posA :: tmpA :: l2).Nodup →
      chainAddrs h2 c f = some (l1 ++ posA :: l2) := by
  intro l1
  induction l1 with
  | nil =>
    intro c f l2 hc hnd
    simp only [List.nil_append] at hc hnd ⊢
    rcases chainAddrs_start_cons hc with ⟨rfl, f2, nd, rfl, hma, hr⟩
    have hnd1 : posNd = nd := Option.some_inj.mp (hpos.symm.trans hma)
    subst hnd1
    rcases chainAddrs_start_cons hr with ⟨hnx, f3, nd2, rfl, hmt, hr2⟩
    have hnd2 : tmpNd = nd2 := Option.some_inj.mp (htmp.symm.trans hmt)
    subst hnd2
    rw [chainAddrs_succ_some h2pos, h2posNx]
    have hcg : chainAddrs h2 tmpNd.next_node (f3 + 1) = some l2 := by
      refine chainAddrs_congr (chainAddrs_mono hr2 (Nat.le_succ f3)) ?_
      intro x hx
      refine hagree x ?_ ?_
      · intro hEq
        subst hEq
        exact (List.nodup_cons.mp hnd).1 (List.mem_cons_of_mem _ hx)
      · intro hEq
        subst hEq
        exact (List.nodup_cons.mp (List.nodup_cons.mp hnd).2).1 hx
    rw [hcg]
    simp
  | cons x l1 ih =>
    intro c f l2 hc hnd
    rw [List.cons_append] at hc hnd
    rcases chainAddrs_start_cons hc with ⟨rfl, f2, ndx, rfl, hmx, hr⟩
    have hxpos : x ≠ posA := by
      intro hEq
      subst hEq
      exact (List.nodup_cons.mp hnd).1 (by simp)
    have hxtmp : x ≠ tmpA := by
      intro hEq
      subst hEq
      exact (List.nodup_cons.mp hnd).1 (by simp)
    have hmx2 : h2.mem x = some ndx := by rw [hagree x hxpos hxtmp, hmx]
    rw [List.cons_append, chainAddrs_succ_some hmx2, ih hr (List.nodup_cons.mp hnd).2]
    simp

theorem chainAddrs_snoc {h h2 : Heap α} {lnA newA : Nat} {lnNd2 newNd : Node α}
    (h2ln : h2.mem lnA = some lnNd2)
    (h2lnNx : lnNd2.next_node = some newA)
    (h2new : h2.mem newA = some newNd)
    (h2newNx : newNd.next_node = none)
    (hagree : ∀ x, x ≠ lnA → x ≠ newA → h2.mem x = h.mem x) :
    ∀ (bl : List Nat) {c : Option Nat},
      chainAddrs h c bl.length = some bl →
      bl.getLast? = some lnA → bl.Nodup → newA ∉ bl →
      chainAddrs h2 c (bl.length + 1) = some (bl ++ [newA]) := by
  intro bl
  induction bl with
  | nil => intro c _ hlast _ _; simp at hlast
  | cons x bl ih =>
    intro c hc hlast hnd hnew
    rcases chainAddrs_start_cons hc with ⟨rfl, f2, ndx, hfeq, hmx, hr⟩
    have hf2 : f2 = bl.length := by simp at hfeq; omega
    subst hf2
    cases bl with
    | nil =>
      have hx : lnA = x := by
        have := hlast
        simp at this
        omega
      subst hx
      rw [show (([lnA] : List Nat).length + 1) = 0 + 1 + 1 from rfl]
      rw [chainAddrs_succ_some h2ln, h2lnNx, chainAddrs_succ_some h2new, h2newNx,
        chainAddrs_none]
      simp
    | cons y bl2 =>
      have hlast2 : (y :: bl2).getLast? = some lnA := by
        rw [List.getLast?_cons_cons] at hlast
        exact hlast
      have hxln : x ≠ lnA := by
        intro hEq
        subst hEq
        exact (List.nodup_cons.mp hnd).1 (getLast?_mem_of_eq _ _ hlast2)
      have hxnew : x ≠ newA := by
        intro hEq
        exact hnew (by rw [hEq]; exact List.mem_cons_self _ _)
      have hmx2 : h2.mem x = some ndx := by rw [hagree x hxln hxnew, hmx]
      have hrec := ih hr hlast2 (List.nodup_cons.mp hnd).2
        (fun hm => hnew (List.mem_cons_of_mem _ hm))
      rw [show ((x :: y :: bl2).length + 1) = ((y :: bl2).length + 1) + 1 from rfl]
      rw [chainAddrs_succ_some hmx2, hrec]
      simp

theorem assignLoop_frame :
    ∀ (fuel : Nat) (h : Heap α) (sentA : Nat) (last_new it : Option Nat) (base : Nat),
      base ≤ h.ctr → base ≤ sentA → (∀ ln, last_new = some ln → base ≤ ln) →
      ∀ (hend : Heap α),
        (assignLoop h sentA last_new it fuel = .ok hend ∨
          assignLoop h sentA last_new it fuel = .error hend) →
        (∀ x, x < base → hend.mem x = h.mem x) ∧ base ≤ hend.ctr := by
  intro fuel
  induction fuel with
  | zero =>
    intro h sentA last_new it base hbc hbs hbl hend hcase
    cases it with
    | none =>
      rcases hcase with hok | herr
      · rw [assignLoop] at hok
        rw [Except.ok.injEq] at hok
        subst hok
        exact ⟨fun x _ => rfl, hbc⟩
      · rw [assignLoop] at herr
        exact absurd herr (by simp)
    | some itA =>
      rcases hcase with hok | herr
      · rw [assignLoop] at hok
        exact absurd hok (by simp)
      · rw [assignLoop] at herr
        rw [Except.error.injEq] at herr
        subst herr
        exact ⟨fun x _ => rfl, hbc⟩
  | succ f ih =>
    intro h sentA last_new it base hbc hbs hbl hend hcase
    cases it with
    | none =>
      rcases hcase with hok | herr
      · rw [assignLoop] at hok
        rw [Except.ok.injEq] at hok
        subst hok
        exact ⟨fun x _ => rfl, hbc⟩
      · rw [assignLoop] at herr
        exact absurd herr (by simp)
    | some itA =>
      rw [assignLoop] at hcase
      split at hcase
      · rcases hcase with hok | herr
        · exact absurd hok (by simp)
        · rw [Except.error.injEq] at herr
          subst herr
          exact ⟨fun x _ => rfl, hbc⟩
      · next itNd hit =>
        split at hcase
        · next h1 hal =>
          have h1eq : h1 = h := by
            unfold allocN at hal
            cases hb : h.budget with
            | zero =>
              rw [hb] at hal
              simp at hal
              exact hal.symm
            | succ b =>
              rw [hb] at hal
              simp at hal
          subst h1eq
          rcases hcase with hok | herr
          · exact absurd hok (by simp)
          · rw [Except.error.injEq] at herr
            subst herr
            exact ⟨fun x _ => rfl, hbc⟩
        · next h1 nodeA hal =>
          rcases allocN_ok hal with ⟨hna, hctr1, hmem1, hbud1⟩
          have hframe1 : ∀ x, x < base → h1.mem x = h.mem x := by
            intro x hx
            rw [hmem1 x, if_neg (by omega)]
          split at hcase
          · next hs1 =>
            rcases hcase with hok | herr
            · exact absurd hok (by simp)
            · rw [Except.error.injEq] at herr
              subst herr
              exact ⟨hframe1, by omega⟩
          · next sentNd hs1 =>
            split at hcase
            · -- sentNd.next_node = none : link through the sentinel
              split at hcase
              · next hw =>
                rcases hcase with hok | herr
                · exact absurd hok (by simp)
                · rw [Except.error.injEq] at herr
                  subst herr
                  refine ⟨fun x hx => ?_, by simp [writeN]; omega⟩
                  rw [writeN_mem, if_neg (by omega), hframe1 x hx]
              · next itNd2 hw =>
                have hres := ih (writeN h1 sentA ⟨sentNd.value, some nodeA⟩) sentA
                  (some nodeA) itNd2.next_node base (by simp [writeN]; omega) hbs
                  (fun ln hln => by rw [Option.some_inj] at hln; omega) hend hcase
                refine ⟨fun x hx => ?_, hres.2⟩
                rw [hres.1 x hx, writeN_mem, if_neg (by omega), hframe1 x hx]
            · -- sentNd.next_node = some _ : link through last_new
              split at hcase
              · -- last_new = none
                rcases hcase with hok | herr
                · exact absurd hok (by simp)
                · rw [Except.error.injEq] at herr
                  subst herr
                  exact ⟨hframe1, by omega⟩
              · next ln =>
                have hbln : base ≤ ln := hbl ln rfl
                split at hcase
                · rcases hcase with hok | herr
                  · exact absurd hok (by simp)
                  · rw [Except.error.injEq] at herr
                    subst herr
                    exact ⟨hframe1, by omega⟩
                · next lnNd hml =>
                  split at hcase
                  · next hw =>
                    rcases hcase with hok | herr
                    · exact absurd hok (by simp)
                    · rw [Except.error.injEq] at herr
                      subst herr
                      refine ⟨fun x hx => ?_, by simp [writeN]; omega⟩
                      rw [writeN_mem, if_neg (by omega), hframe1 x hx]
                  · next itNd2 hw =>
                    have hres := ih (writeN h1 ln ⟨lnNd.value, some nodeA⟩) sentA
                      (some nodeA) itNd2.next_node base (by simp [writeN]; omega) hbs
                      (fun ln2 hln2 => by rw [Option.some_inj] at hln2; omega) hend hcase
                    refine ⟨fun x hx => ?_, hres.2⟩
                    rw [hres.1 x hx, writeN_mem, if_neg (by omega), hframe1 x hx]

end SLHeap

namespace SLHeap

variable {α : Type}

theorem copyCtorH_error_frame [Inhabited α] {h h1 : Heap α} {src : SLLH}
    (hfail : copyCtorH h src = .error h1) :
    (∀ x, x < h.ctr → h1.mem x = h.mem x) ∧ h.ctr ≤ h1.ctr := by
  unfold copyCtorH at hfail
  split at hfail
  · rw [Except.error.injEq] at hfail
    subst hfail
    constructor
    · intro x hx
      simp only [placeSent]
      rw [if_neg (by omega)]
    · simp only [placeSent]
      omega
  · next srcSentNd hms =>
    split at hfail
    · next hE hasn =>
      rw [Except.error.injEq] at hfail
      subst hfail
      have hfr := assignLoop_frame src.size_ (placeSent h ⟨default, none⟩) h.ctr none
        srcSentNd.next_node h.ctr (by simp [placeSent]) (le_refl _)
        (fun ln hln => by simp at hln) hE (Or.inr hasn)
      refine ⟨fun x hx => ?_, hfr.2⟩
      rw [hfr.1 x hx]
      simp only [placeSent]
      rw [if_neg (by omega)]
    · exact absurd hfail (by simp)

end SLHeap

section ClaimC7

open SLHeap

/-- C7: copy assignment is safe.  Assigning a container to itself (the
`this != &rhs` identity test, object identity being the address of the
embedded sentinel) leaves the heap and the container completely unchanged;
and whenever the source-copying step `SingleLinkedList temp(rhs)` fails (an
allocation failure while building the copy), the assignment propagates that
failure and the destination container — its struct (hence its cached size)
and its observable element sequence — is completely unmodified, because the
only statements of `operator=` that touch `*this` run after the copy has
fully succeeded. -/
theorem C7_copy_assign_safety :
    (∀ (α : Type) [Inhabited α] (h : Heap α) (dst : SLLH),
        operatorAssignH h dst dst = .ok (h, dst)) ∧
    (∀ (α : Type) [Inhabited α] (h h1 : Heap α) (dst src : SLLH) (asD : List Nat),
        dst.sent ≠ src.sent →
        copyCtorH h src = .error h1 →
        okCont h dst asD →
        operatorAssignH h dst src = .error h1 ∧ toSeq h1 dst = toSeq h dst) := by
  constructor
  · intro α _ h dst
    unfold operatorAssignH
    rw [if_pos rfl]
  · intro α inst h h1 dst src asD hne hfail hok
    have hop : operatorAssignH h dst src = .error h1 := by
      unfold operatorAssignH
      rw [if_neg hne, hfail]
    refine ⟨hop, ?_⟩
    rcases copyCtorH_error_frame hfail with ⟨hfr, hctr⟩
    rcases hok with ⟨hca, hlen, hnd, hbound⟩
    exact (toSeq_congr hca (fun a ha => hfr a (hbound a ha))).2

/-- Witness for C7: in the concrete heap `heapC7` (budget 1), copying the
two-cell source `srcC7` fails midway; the assignment propagates the failure
and the destination's observable sequence is unchanged. -/
theorem C7_copy_assign_safety_w :
    dstC7.sent ≠ srcC7.sent ∧ copyCtorH heapC7 srcC7 = .error failHeapC7 ∧
      okCont heapC7 dstC7 [1] ∧
      operatorAssignH heapC7 dstC7 srcC7 = .error failHeapC7 ∧
      toSeq failHeapC7 dstC7 = toSeq heapC7 dstC7 :=
  ⟨by decide, rfl, by unfold okCont; decide,
    (C7_copy_assign_safety.2 Nat heapC7 failHeapC7 dstC7 srcC7 [1] (by decide) rfl
      (by unfold okCont; decide)).1,
    (C7_copy_assign_safety.2 Nat heapC7 failHeapC7 dstC7 srcC7 [1] (by decide) rfl
      (by unfold okCont; decide)).2⟩

end ClaimC7

namespace SLHeap

variable {α : Type}

theorem getLast?_concat_eq : ∀ (l : List Nat) (a : Nat), (l ++ [a]).getLast? = some a := by
  intro l a
  induction l with
  | nil => simp
  | cons x l ih =>
    cases l with
    | nil => simp
    | cons y l2 =>
      rw [List.cons_append, List.cons_append, List.getLast?_cons_cons, ← List.cons_append]
      exact ih

theorem getLast?_decomp : ∀ (l : List Nat) (a : Nat), l.getLast? = some a →
    ∃ l1, l = l1 ++ [a] := by
  intro l
  induction l with
  | nil => intro a h; simp at h
  | cons x l ih =>
    intro a h
    cases l with
    | nil =>
      simp at h
      subst h
      exact ⟨[], rfl⟩
    | cons y l2 =>
      rw [List.getLast?_cons_cons] at h
      rcases ih a h with ⟨l1, hl⟩
      exact ⟨x :: l1, by rw [List.cons_append, ← hl]⟩

theorem valsAt_congr_val {h h2 : Heap α} {l : List Nat}
    (hag : ∀ a ∈ l,
      (h2.mem a).map (fun nd => nd.value) = (h.mem a).map (fun nd => nd.value)) :
    valsAt h2 l = valsAt h l := by
  unfold valsAt
  induction l with
  | nil => rfl
  | cons x xs ih =>
    simp only [List.map_cons]
    rw [hag x (by simp), ih (fun a ha => hag a (List.mem_cons_of_mem x ha))]

end SLHeap

namespace SLHeap

variable {α : Type}

theorem valsAt_append (h : Heap α) (l1 l2 : List Nat) :
    valsAt h (l1 ++ l2) = valsAt h l1 ++ valsAt h l2 := by
  unfold valsAt
  exact List.map_append _ _ _

theorem assignLoop_ok :
    ∀ (sl : List Nat) (h : Heap α) (sentA : Nat) (bl : List Nat) (last_new it : Option Nat)
      (fuel : Nat) (sentNd : Node α),
      chainAddrs h it fuel = some sl →
      sl.length ≤ h.budget →
      (∀ x ∈ sl, x < sentA) →
      sentA < h.ctr →
      h.mem sentA = some sentNd →
      chainAddrs h sentNd.next_node bl.length = some bl →
      (∀ x ∈ bl, sentA < x ∧ x < h.ctr) →
      ((last_new = none ∧ bl = []) ∨ (∃ ln, last_new = some ln ∧ bl.getLast? = some ln)) →
      ∃ h2 nl sentNd2,
        assignLoop h sentA last_new it fuel = .ok h2 ∧
        h.ctr ≤ h2.ctr ∧
        (∀ x, x < h.ctr → x ≠ sentA → (∀ ln, last_new = some ln → x ≠ ln) →
          h2.mem x = h.mem x) ∧
        (∀ x ∈ nl, h.ctr ≤ x ∧ x < h2.ctr) ∧
        nl.length = sl.length ∧
        h2.mem sentA = some sentNd2 ∧
        chainAddrs h2 sentNd2.next_node (bl ++ nl).length = some (bl ++ nl) ∧
        valsAt h2 (bl ++ nl) = valsAt h bl ++ valsAt h sl := by
  intro sl
  induction sl with
  | nil =>
    intro h sentA bl last_new it fuel sentNd hsl hbud hslb hsc hsme hble hblb hlast
    have hitn : it = none := chainAddrs_start_nil hsl
    subst hitn
    refine ⟨h, [], sentNd, ?_, le_refl _, fun x _ _ _ => rfl, by simp, rfl, hsme, ?_, ?_⟩
    · cases fuel <;> rfl
    · simpa using hble
    · simp [valsAt]
  | cons itA sl' ih =>
    intro h sentA bl last_new it fuel sentNd hsl hbud hslb hsc hsme hble hblb hlast
    rcases chainAddrs_start_cons hsl with ⟨rfl, f, itNd, rfl, hit, hsl'⟩
    have hitA : itA < sentA := hslb itA (by simp)
    cases hb : h.budget with
    | zero =>
      rw [hb] at hbud
      simp at hbud
    | succ b =>
      have hbud' : sl'.length ≤ b := by
        simp at hbud
        omega
      obtain ⟨hp, e2, hpmem, hpctr, hpbud⟩ :
          ∃ hp, allocN h ⟨itNd.value, none⟩ = .ok (hp, h.ctr) ∧
            (∀ x, hp.mem x = if x = h.ctr then some ⟨itNd.value, none⟩ else h.mem x) ∧
            hp.ctr = h.ctr + 1 ∧ hp.budget = b :=
        ⟨_, by unfold allocN; rw [hb], fun x => rfl, rfl, rfl⟩
      have e3 : hp.mem sentA = some sentNd := by
        rw [hpmem, if_neg (by omega), hsme]
      cases hnx : sentNd.next_node with
      | none =>
        have hbl0 : bl = [] := by
          cases hblc : bl with
          | nil => rfl
          | cons y bl2 =>
            rw [hblc] at hble
            rcases chainAddrs_start_cons hble with ⟨hy, _⟩
            rw [hnx] at hy
            simp at hy
        subst hbl0
        have hlastn : last_new = none := by
          rcases hlast with ⟨h1, _⟩ | ⟨ln, hln, hgl⟩
          · exact h1
          · simp at hgl
        subst hlastn
        have e5 : (writeN hp sentA ⟨sentNd.value, some h.ctr⟩).mem itA = some itNd := by
          rw [writeN_mem, if_neg (by omega), hpmem, if_neg (by omega), hit]
        have hsl'2 : chainAddrs (writeN hp sentA ⟨sentNd.value, some h.ctr⟩)
            itNd.next_node f = some sl' := by
          refine chainAddrs_congr hsl' ?_
          intro x hx
          have hxlt := hslb x (List.mem_cons_of_mem _ hx)
          rw [writeN_mem, if_neg (by omega), hpmem, if_neg (by omega)]
        have hctr2 : sentA < (writeN hp sentA ⟨sentNd.value, some h.ctr⟩).ctr := by
          simp only [writeN]
          omega
        have e6 : (writeN hp sentA ⟨sentNd.value, some h.ctr⟩).mem sentA
            = some ⟨sentNd.value, some h.ctr⟩ := by
          rw [writeN_mem, if_pos rfl]
        have hmnew : (writeN hp sentA ⟨sentNd.value, some h.ctr⟩).mem h.ctr
            = some ⟨itNd.value, none⟩ := by
          rw [writeN_mem, if_neg (by omega), hpmem, if_pos rfl]
        have hchain2 : chainAddrs (writeN hp sentA ⟨sentNd.value, some h.ctr⟩)
            (some h.ctr) (0 + 1) = some [h.ctr] := by
          rw [chainAddrs_succ_some hmnew]
          simp [chainAddrs_none]
        rcases ih (writeN hp sentA ⟨sentNd.value, some h.ctr⟩) sentA [h.ctr] (some h.ctr)
            itNd.next_node f ⟨sentNd.value, some h.ctr⟩ hsl'2
            (by simp only [writeN]; rw [hpbud]; exact hbud')
            (fun x hx => hslb x (List.mem_cons_of_mem _ hx)) hctr2 e6 hchain2
            (by
              intro x hx
              simp only [writeN]
              simp at hx
              subst hx
              omega)
            (Or.inr ⟨h.ctr, rfl, by simp⟩)
          with ⟨h2, nl', sentNd2, hrec, hctrle, hframe, hnlb, hnllen, hsme2, hchfin, hvals⟩
        have hctrw : (writeN hp sentA ⟨sentNd.value, some h.ctr⟩).ctr = h.ctr + 1 := by
          simp only [writeN]
          omega
        refine ⟨h2, h.ctr :: nl', sentNd2, ?_, ?_, ?_, ?_, ?_, hsme2, ?_, ?_⟩
        · rw [assignLoop]
          simp only [hit, e2, e3, hnx, e5]
          exact hrec
        · rw [hctrw] at hctrle
          omega
        · intro x hx hxs _
          have hfr := hframe x (by omega) hxs
            (fun ln hln => by rw [Option.some_inj] at hln; omega)
          rw [hfr, writeN_mem, if_neg hxs, hpmem, if_neg (by omega)]
        · intro x hx
          rcases List.mem_cons.mp hx with rfl | hx2
          · rw [hctrw] at hctrle
            exact ⟨le_refl _, by omega⟩
          · have hfr := hnlb x hx2
            rw [hctrw] at hfr
            exact ⟨by omega, hfr.2⟩
        · simp [hnllen]
        · simpa using hchfin
        · have hv1 : valsAt (writeN hp sentA ⟨sentNd.value, some h.ctr⟩) [h.ctr]
              = [some itNd.value] := by
            unfold valsAt
            simp only [List.map_cons, List.map_nil]
            rw [hmnew]
            rfl
          have hv2 : valsAt (writeN hp sentA ⟨sentNd.value, some h.ctr⟩) sl'
              = valsAt h sl' := by
            refine valsAt_congr ?_
            intro x hx
            have hxlt := hslb x (List.mem_cons_of_mem _ hx)
            rw [writeN_mem, if_neg (by omega), hpmem, if_neg (by omega)]
          rw [hv1, hv2] at hvals
          simp only [List.nil_append]
          have hl : ([h.ctr] ++ nl') = h.ctr :: nl' := by simp
          rw [hl] at hvals
          rw [hvals]
          unfold valsAt
          simp [hit]
      | some nxA =>
        rcases hlast with ⟨hln, hbl0⟩ | ⟨ln, hlneq, hgl⟩
        · subst hbl0
          rw [hnx] at hble
          rw [show (([] : List Nat)).length = 0 from rfl, chainAddrs_some_zero] at hble
          exact absurd hble (by simp)
        · subst hlneq
          rcases getLast?_decomp bl ln hgl with ⟨bl1, hbl⟩
          have hbleS : chainAddrs h sentNd.next_node bl.length = some (bl1 ++ ln :: []) := by
            rw [hble, hbl]
          rcases chainAddrs_split bl1 hbleS with ⟨lnNd, f3, hlnm, hlnx0, _⟩
          have hlnx : lnNd.next_node = none := hlnx0
          have hlnb := hblb ln (by rw [hbl]; simp)
          have e4 : hp.mem ln = some lnNd := by
            rw [hpmem, if_neg (by omega), hlnm]
          have e5 : (writeN hp ln ⟨lnNd.value, some h.ctr⟩).mem itA = some itNd := by
            rw [writeN_mem, if_neg (by omega), hpmem, if_neg (by omega), hit]
          have hsl'2 : chainAddrs (writeN hp ln ⟨lnNd.value, some h.ctr⟩)
              itNd.next_node f = some sl' := by
            refine chainAddrs_congr hsl' ?_
            intro x hx
            have hxlt := hslb x (List.mem_cons_of_mem _ hx)
            rw [writeN_mem, if_neg (by omega), hpmem, if_neg (by omega)]
          have hctr2 : sentA < (writeN hp ln ⟨lnNd.value, some h.ctr⟩).ctr := by
            simp only [writeN]
            omega
          have e6 : (writeN hp ln ⟨lnNd.value, some h.ctr⟩).mem sentA = some sentNd := by
            rw [writeN_mem, if_neg (by omega), hpmem, if_neg (by omega), hsme]
          have hmnew : (writeN hp ln ⟨lnNd.value, some h.ctr⟩).mem h.ctr
              = some ⟨itNd.value, none⟩ := by
            rw [writeN_mem, if_neg (by omega), hpmem, if_pos rfl]
          have hchainB : chainAddrs (writeN hp ln ⟨lnNd.value, some h.ctr⟩)
              sentNd.next_node (bl.length + 1) = some (bl ++ [h.ctr]) := by
            refine chainAddrs_snoc (h := h)
              (by rw [writeN_mem, if_pos rfl] : (writeN hp ln ⟨lnNd.value, some h.ctr⟩).mem ln
                = some ⟨lnNd.value, some h.ctr⟩)
              rfl hmnew rfl ?_ bl hble hgl (chainAddrs_nodup hble) ?_
            · intro x hx1 hx2
              rw [writeN_mem, if_neg hx1, hpmem, if_neg hx2]
            · intro hmem
              have := hblb _ hmem
              omega
          have hchainB2 := chainAddrs_exact hchainB
          rcases ih (writeN hp ln ⟨lnNd.value, some h.ctr⟩) sentA (bl ++ [h.ctr])
              (some h.ctr) itNd.next_node f sentNd hsl'2
              (by simp only [writeN]; rw [hpbud]; exact hbud')
              (fun x hx => hslb x (List.mem_cons_of_mem _ hx)) hctr2 e6 hchainB2
              (by
                intro x hx
                simp only [writeN]
                rcases List.mem_append.mp hx with hx2 | hx2
                · have := hblb x hx2
                  omega
                · simp at hx2
                  subst hx2
                  omega)
              (Or.inr ⟨h.ctr, rfl, getLast?_concat_eq bl h.ctr⟩)
            with ⟨h2, nl', sentNd2, hrec, hctrle, hframe, hnlb, hnllen, hsme2, hchfin, hvals⟩
          have hctrw : (writeN hp ln ⟨lnNd.value, some h.ctr⟩).ctr = h.ctr + 1 := by
            simp only [writeN]
            omega
          refine ⟨h2, h.ctr :: nl', sentNd2, ?_, ?_, ?_, ?_, ?_, hsme2, ?_, ?_⟩
          · rw [assignLoop]
            simp only [hit, e2, e3, hnx, e4, e5]
            exact hrec
          · rw [hctrw] at hctrle
            omega
          · intro x hx hxs hxl
            have hxln : x ≠ ln := hxl ln rfl
            have hfr := hframe x (by omega) hxs
              (fun ln0 hln0 => by rw [Option.some_inj] at hln0; omega)
            rw [hfr, writeN_mem, if_neg hxln, hpmem, if_neg (by omega)]
          · intro x hx
            rcases List.mem_cons.mp hx with rfl | hx2
            · rw [hctrw] at hctrle
              exact ⟨le_refl _, by omega⟩
            · have hfr := hnlb x hx2
              rw [hctrw] at hfr
              exact ⟨by omega, hfr.2⟩
          · simp [hnllen]
          · have hl : (bl ++ [h.ctr]) ++ nl' = bl ++ h.ctr :: nl' := by simp
            rw [hl] at hchfin
            exact hchfin
          · have hv0 : valsAt (writeN hp ln ⟨lnNd.value, some h.ctr⟩) bl = valsAt h bl := by
              refine valsAt_congr_val ?_
              intro x hx
              have hxb := hblb x hx
              rcases eq_or_ne x ln with rfl | hxn
              · rw [writeN_mem, if_pos rfl, hlnm]
                rfl
              · rw [writeN_mem, if_neg hxn, hpmem, if_neg (by omega)]
            have hv1 : valsAt (writeN hp ln ⟨lnNd.value, some h.ctr⟩) [h.ctr]
                = [some itNd.value] := by
              unfold valsAt
              simp only [List.map_cons, List.map_nil]
              rw [hmnew]
              rfl
            have hv2 : valsAt (writeN hp ln ⟨lnNd.value, some h.ctr⟩) sl'
                = valsAt h sl' := by
              refine valsAt_congr ?_
              intro x hx
              have hxlt := hslb x (List.mem_cons_of_mem _ hx)
              rw [writeN_mem, if_neg (by omega), hpmem, if_neg (by omega)]
            have hstep1 : valsAt (writeN hp ln ⟨lnNd.value, some h.ctr⟩) (bl ++ [h.ctr])
                = valsAt h bl ++ [some itNd.value] := by
              rw [valsAt_append, hv0, hv1]
            have hkey : valsAt h2 ((bl ++ [h.ctr]) ++ nl')
                = (valsAt h bl ++ [some itNd.value]) ++ valsAt h sl' := by
              rw [hvals, hstep1, hv2]
            have hleq : bl ++ h.ctr :: nl' = (bl ++ [h.ctr]) ++ nl' := by simp
            rw [hleq, hkey]
            have hslv : valsAt h (itA :: sl') = some itNd.value :: valsAt h sl' := by
              unfold valsAt
              simp [hit]
            rw [hslv]
            simp

end SLHeap

namespace SLHeap

variable {α : Type}

theorem placeSent_mem (h : Heap α) (nd : Node α) (x : Nat) :
    (placeSent h nd).mem x = if x = h.ctr then some nd else h.mem x := rfl

theorem copyCtorH_ok [Inhabited α] {h : Heap α} {src : SLLH} {asS : List Nat}
    (hok : okCont h src asS) (hbud : asS.length ≤ h.budget) :
    ∃ h2 D asD,
      copyCtorH h src = .ok (h2, D) ∧
      D.sent = h.ctr ∧ D.size_ = src.size_ ∧
      okCont h2 D asD ∧
      (∀ x ∈ D.sent :: asD, h.ctr ≤ x) ∧
      (∀ x, x < h.ctr → h2.mem x = h.mem x) ∧
      h.ctr < h2.ctr ∧
      toSeq h2 src = toSeq h src ∧
      toSeq h2 D = toSeq h src := by
  rcases hok with ⟨hca, hlen, hnd, hbound⟩
  have hsb : src.sent < h.ctr := hbound _ (by simp)
  unfold contAddrs at hca
  cases hms : h.mem src.sent with
  | none => rw [hms] at hca; exact absurd hca (by simp)
  | some srcSnd =>
    rw [hms] at hca
    have hm1 : (placeSent h (⟨default, none⟩ : Node α)).mem src.sent = some srcSnd := by
      rw [placeSent_mem, if_neg (by omega), hms]
    have hca1 : chainAddrs (placeSent h (⟨default, none⟩ : Node α)) srcSnd.next_node
        src.size_ = some asS := by
      refine chainAddrs_congr hca ?_
      intro x hx
      have := hbound x (List.mem_cons_of_mem _ hx)
      rw [placeSent_mem, if_neg (by omega)]
    have hsent1 : (placeSent h (⟨default, none⟩ : Node α)).mem h.ctr
        = some (⟨default, none⟩ : Node α) := by
      rw [placeSent_mem, if_pos rfl]
    have hbl1 : chainAddrs (placeSent h (⟨default, none⟩ : Node α))
        (Node.next_node (⟨default, none⟩ : Node α)) (List.length ([] : List Nat))
        = some [] := chainAddrs_none _ _
    rcases assignLoop_ok asS (placeSent h (⟨default, none⟩ : Node α)) h.ctr [] none
        srcSnd.next_node src.size_ ⟨default, none⟩ hca1
        (by show asS.length ≤ h.budget; exact hbud)
        (fun x hx => hbound x (List.mem_cons_of_mem _ hx))
        (by show h.ctr < h.ctr + 1; omega) hsent1 hbl1 (by simp)
        (Or.inl ⟨rfl, rfl⟩)
      with ⟨h2, nl, sentNd2, heq, hctrle, hframe, hnlb, hnllen, hsme2, hchfin, hvals⟩
    have hctrle2 : h.ctr + 1 ≤ h2.ctr := hctrle
    have hlow : ∀ x, x < h.ctr → h2.mem x = h.mem x := by
      intro x hx
      have := hframe x (by show x < h.ctr + 1; omega) (by omega) (fun ln hln => by simp at hln)
      rw [this, placeSent_mem, if_neg (by omega)]
    have hnlb2 : ∀ x ∈ nl, h.ctr + 1 ≤ x ∧ x < h2.ctr := hnlb
    refine ⟨h2, ⟨h.ctr, src.size_⟩, nl, ?_, rfl, rfl, ?_, ?_, hlow, by omega, ?_, ?_⟩
    · unfold copyCtorH
      simp only [hm1, heq]
    · refine ⟨?_, ?_, ?_, ?_⟩
      · unfold contAddrs
        simp only [hsme2]
        refine chainAddrs_mono hchfin ?_
        show ([] ++ nl).length ≤ src.size_
        simp
        omega
      · show nl.length = src.size_
        omega
      · refine List.nodup_cons.mpr ⟨?_, chainAddrs_nodup hchfin⟩
        intro hmem
        have hmem2 : h.ctr ∈ nl := hmem
        have := hnlb2 _ hmem2
        omega
      · intro a ha
        rcases List.mem_cons.mp ha with rfl | ha2
        · show h.ctr < h2.ctr
          omega
        · exact (hnlb2 a ha2).2
    · intro x hx
      rcases List.mem_cons.mp hx with rfl | hx2
      · exact le_refl _
      · have := hnlb2 x hx2
        omega
    · have hagree : ∀ a ∈ src.sent :: asS, h2.mem a = h.mem a := by
        intro a ha
        exact hlow a (hbound a ha)
      have hcaX : contAddrs h src = some asS := by
        unfold contAddrs
        rw [hms]
        exact hca
      exact (toSeq_congr hcaX hagree).2
    · have hcaD : contAddrs h2 (⟨h.ctr, src.size_⟩ : SLLH) = some nl := by
        unfold contAddrs
        simp only [hsme2]
        refine chainAddrs_mono hchfin ?_
        show ([] ++ nl).length ≤ src.size_
        simp
        omega
      have hcaX : contAddrs h src = some asS := by
        unfold contAddrs
        rw [hms]
        exact hca
      unfold toSeq
      rw [hcaD, hcaX]
      simp only [Option.map_some']
      have hv1 : valsAt h2 nl = valsAt (placeSent h (⟨default, none⟩ : Node α)) asS := by
        simpa using hvals
      have hv2 : valsAt (placeSent h (⟨default, none⟩ : Node α)) asS = valsAt h asS := by
        refine valsAt_congr ?_
        intro x hx
        have := hbound x (List.mem_cons_of_mem _ hx)
        rw [placeSent_mem, if_neg (by omega)]
      rw [hv1, hv2]

end SLHeap


namespace SLHeap

variable {α : Type}

theorem contAddrs_elim {h : Heap α} {X : SLLH} {as : List Nat}
    (hca : contAddrs h X = some as) :
    ∃ sentNd, h.mem X.sent = some sentNd ∧
      chainAddrs h sentNd.next_node X.size_ = some as := by
  unfold contAddrs at hca
  cases hm : h.mem X.sent with
  | none => rw [hm] at hca; exact absurd hca (by simp)
  | some nd =>
    rw [hm] at hca
    exact ⟨nd, rfl, hca⟩

theorem pushFrontH_shape {h h2 : Heap α} {D D2 : SLLH} {v : α} {asD : List Nat}
    (hokD : okCont h D asD) (hop : pushFrontH h D v = .ok (h2, D2)) :
    ∃ asD2, okCont h2 D2 asD2 ∧
      (∀ x ∈ D2.sent :: asD2, x ∈ D.sent :: asD ∨ h.ctr ≤ x) ∧ h.ctr ≤ h2.ctr ∧
      (∀ x, x < h.ctr → x ∉ D.sent :: asD → h2.mem x = h.mem x) := by
  rcases hokD with ⟨hcaD, hlenD, hndD, hbD⟩
  rcases contAddrs_elim hcaD with ⟨sentNd, hmd, hch⟩
  have hDs : D.sent < h.ctr := hbD _ (by simp)
  unfold pushFrontH at hop
  split at hop
  · simp at hop
  · next sentNd0 hmd0 =>
    have hsq : sentNd = sentNd0 := Option.some_inj.mp (hmd.symm.trans hmd0)
    subst hsq
    split at hop
    · simp at hop
    · next h1 nodeA hal =>
      rcases allocN_ok hal with ⟨rfl, hctr1, hmem1, hbud1⟩
      split at hop
      · simp at hop
      · next sentNd1 hm1 =>
        rw [hmem1, if_neg (by omega), hmd] at hm1
        have hsq1 : sentNd = sentNd1 := Option.some_inj.mp hm1
        subst hsq1
        rw [Except.ok.injEq, Prod.mk.injEq] at hop
        obtain ⟨rfl, rfl⟩ := hop
        have hm2sent : (writeN h1 D.sent ⟨sentNd.value, some h.ctr⟩).mem D.sent
            = some ⟨sentNd.value, some h.ctr⟩ := by rw [writeN_mem, if_pos rfl]
        have hm2new : (writeN h1 D.sent ⟨sentNd.value, some h.ctr⟩).mem h.ctr
            = some ⟨v, sentNd.next_node⟩ := by
          rw [writeN_mem, if_neg (by omega), hmem1, if_pos rfl]
        have hch2 : chainAddrs (writeN h1 D.sent ⟨sentNd.value, some h.ctr⟩)
            sentNd.next_node D.size_ = some asD := by
          refine chainAddrs_congr hch ?_
          intro x hx
          have hxb := hbD x (List.mem_cons_of_mem _ hx)
          have hxs : x ≠ D.sent := by
            intro hEq
            subst hEq
            exact (List.nodup_cons.mp hndD).1 hx
          rw [writeN_mem, if_neg hxs, hmem1, if_neg (by omega)]
        have hwctr : (writeN h1 D.sent ⟨sentNd.value, some h.ctr⟩).ctr = h.ctr + 1 := by
          simp only [writeN]
          omega
        refine ⟨h.ctr :: asD, ⟨?_, ?_, ?_, ?_⟩, ?_, ?_, ?_⟩
        · unfold contAddrs
          simp only [hm2sent]
          rw [chainAddrs_succ_some hm2new]
          simp [hch2]
        · show (h.ctr :: asD).length = D.size_ + 1
          simp [hlenD]
        · show (D.sent :: h.ctr :: asD).Nodup
          refine List.nodup_cons.mpr ⟨?_, List.nodup_cons.mpr ⟨?_, (List.nodup_cons.mp hndD).2⟩⟩
          · intro hmem
            rcases List.mem_cons.mp hmem with hEq | hmem2
            · omega
            · exact (List.nodup_cons.mp hndD).1 hmem2
          · intro hmem
            have := hbD _ (List.mem_cons_of_mem _ hmem)
            omega
        · intro a ha
          rw [hwctr]
          rcases List.mem_cons.mp ha with rfl | ha2
          · show D.sent < h.ctr + 1
            omega
          · rcases List.mem_cons.mp ha2 with rfl | ha3
            · omega
            · have := hbD a (List.mem_cons_of_mem _ ha3)
              omega
        · intro x hx
          rcases List.mem_cons.mp hx with rfl | hx2
          · exact Or.inl (by simp)
          · rcases List.mem_cons.mp hx2 with rfl | hx3
            · exact Or.inr (le_refl _)
            · exact Or.inl (List.mem_cons_of_mem _ hx3)
        · rw [hwctr]
          omega
        · intro x hx hnmem
          have hxs : x ≠ D.sent := by
            intro hEq
            subst hEq
            exact hnmem (List.mem_cons_self _ _)
          rw [writeN_mem, if_neg hxs, hmem1, if_neg (by omega)]

theorem popFrontH_shape {h h2 : Heap α} {D D2 : SLLH} {asD : List Nat}
    (hokD : okCont h D asD) (hop : popFrontH h D = .ok (h2, D2)) :
    ∃ asD2, okCont h2 D2 asD2 ∧
      (∀ x ∈ D2.sent :: asD2, x ∈ D.sent :: asD ∨ h.ctr ≤ x) ∧ h.ctr ≤ h2.ctr ∧
      (∀ x, x < h.ctr → x ∉ D.sent :: asD → h2.mem x = h.mem x) := by
  rcases hokD with ⟨hcaD, hlenD, hndD, hbD⟩
  rcases contAddrs_elim hcaD with ⟨sentNd, hmd, hch⟩
  have hDs : D.sent < h.ctr := hbD _ (by simp)
  unfold popFrontH at hop
  split at hop
  · simp at hop
  · split at hop
    · simp at hop
    · next sentNd0 hmd0 =>
      have hsq : sentNd = sentNd0 := Option.some_inj.mp (hmd.symm.trans hmd0)
      subst hsq
      split at hop
      · simp at hop
      · next tmp hnx =>
        split at hop
        · simp at hop
        · next tmpNd hmt =>
          rw [Except.ok.injEq, Prod.mk.injEq] at hop
          obtain ⟨rfl, rfl⟩ := hop
          cases asD with
          | nil =>
            have := chainAddrs_start_nil hch
            rw [hnx] at this
            simp at this
          | cons b rest =>
            rcases chainAddrs_start_cons hch with ⟨hb, f2, nd2, hf, hmb, hch2⟩
            rw [hnx] at hb
            rw [Option.some_inj] at hb
            subst hb
            have hndq : tmpNd = nd2 := Option.some_inj.mp (hmt.symm.trans hmb)
            subst hndq
            have htmpD : tmp ∈ tmp :: rest := by simp
            have htmpb := hbD tmp (List.mem_cons_of_mem _ htmpD)
            have htmps : tmp ≠ D.sent := by
              intro hEq
              exact (List.nodup_cons.mp hndD).1 (hEq ▸ htmpD)
            have hm2sent : (freeN (writeN h D.sent ⟨sentNd.value, tmpNd.next_node⟩) tmp).mem
                D.sent = some ⟨sentNd.value, tmpNd.next_node⟩ := by
              rw [freeN_mem, if_neg (Ne.symm htmps), writeN_mem, if_pos rfl]
            have hch3 : chainAddrs (freeN (writeN h D.sent ⟨sentNd.value, tmpNd.next_node⟩)
                tmp) tmpNd.next_node f2 = some rest := by
              refine chainAddrs_congr hch2 ?_
              intro x hx
              have hxs : x ≠ D.sent := by
                intro hEq
                exact (List.nodup_cons.mp hndD).1 (hEq ▸ List.mem_cons_of_mem _ hx)
              have hxt : x ≠ tmp := by
                intro hEq
                exact (List.nodup_cons.mp (List.nodup_cons.mp hndD).2).1 (hEq ▸ hx)
              rw [freeN_mem, if_neg hxt, writeN_mem, if_neg hxs]
            refine ⟨rest, ⟨?_, ?_, ?_, ?_⟩, ?_, le_refl _, ?_⟩
            · unfold contAddrs
              simp only [hm2sent]
              refine chainAddrs_mono hch3 ?_
              show f2 ≤ D.size_ - 1
              omega
            · show rest.length = D.size_ - 1
              have hq : (tmp :: rest).length = D.size_ := hlenD
              simp at hq
              omega
            · show (D.sent :: rest).Nodup
              refine List.nodup_cons.mpr ⟨?_, ?_⟩
              · intro hmem
                exact (List.nodup_cons.mp hndD).1 (List.mem_cons_of_mem _ hmem)
              · exact (List.nodup_cons.mp (List.nodup_cons.mp hndD).2).2
            · intro a ha
              rcases List.mem_cons.mp ha with rfl | ha2
              · show D.sent < (freeN (writeN h D.sent ⟨sentNd.value, tmpNd.next_node⟩) tmp).ctr
                exact hDs
              · exact hbD a (List.mem_cons_of_mem _ (List.mem_cons_of_mem _ ha2))
            · intro x hx
              rcases List.mem_cons.mp hx with rfl | hx2
              · exact Or.inl (by simp)
              · exact Or.inl (List.mem_cons_of_mem _ (List.mem_cons_of_mem _ hx2))
            · intro x hx hnmem
              have hxs : x ≠ D.sent := by
                intro hEq
                subst hEq
                exact hnmem (List.mem_cons_self _ _)
              have hxt : x ≠ tmp := by
                intro hEq
                subst hEq
                exact hnmem (List.mem_cons_of_mem _ (List.mem_cons_self _ _))
              rw [freeN_mem, if_neg hxt, writeN_mem, if_neg hxs]

end SLHeap

namespace SLHeap

variable {α : Type}

theorem mem_split_addr : ∀ {l : List Nat} {a : Nat}, a ∈ l → ∃ l1 l2, l = l1 ++ a :: l2 := by
  intro l
  induction l with
  | nil => intro a h; simp at h
  | cons x xs ih =>
    intro a h
    rcases List.mem_cons.mp h with rfl | h2
    · exact ⟨[], xs, rfl⟩
    · rcases ih h2 with ⟨l1, l2, rfl⟩
      exact ⟨x :: l1, l2, rfl⟩

theorem insertAfterH_shape {h h2 : Heap α} {D D2 : SLLH} {pos c : Option Nat} {v : α}
    {asD : List Nat} {a : Nat}
    (hokD : okCont h D asD) (hpos : pos = some a) (hmem : a ∈ D.sent :: asD)
    (hop : insertAfterH h D pos v = .ok (h2, D2, c)) :
    ∃ asD2, okCont h2 D2 asD2 ∧
      (∀ x ∈ D2.sent :: asD2, x ∈ D.sent :: asD ∨ h.ctr ≤ x) ∧ h.ctr ≤ h2.ctr ∧
      (∀ x, x < h.ctr → x ∉ D.sent :: asD → h2.mem x = h.mem x) := by
  rcases hokD with ⟨hcaD, hlenD, hndD, hbD⟩
  rcases contAddrs_elim hcaD with ⟨sentNd, hmd, hch⟩
  have hDs : D.sent < h.ctr := hbD _ (by simp)
  have hab : a < h.ctr := hbD _ hmem
  rw [hpos] at hop
  unfold insertAfterH at hop
  split at hop
  · next heq => exact absurd heq (by simp)
  · next posA heq =>
    rw [Option.some_inj] at heq
    subst heq
    split at hop
    · simp at hop
    · next posNd hma =>
      split at hop
      · simp at hop
      · next h1 nodeA hal =>
        rcases allocN_ok hal with ⟨rfl, hctr1, hmem1, hbud1⟩
        split at hop
        · simp at hop
        · next posNd1 hm1 =>
          rw [hmem1, if_neg (by omega), hma] at hm1
          have hq : posNd = posNd1 := Option.some_inj.mp hm1
          subst hq
          rw [Except.ok.injEq, Prod.mk.injEq, Prod.mk.injEq] at hop
          obtain ⟨rfl, rfl, rfl⟩ := hop
          have hwctr : (writeN h1 a ⟨posNd.value, some h.ctr⟩).ctr = h.ctr + 1 := by
            simp only [writeN]
            omega
          have hm2pos : (writeN h1 a ⟨posNd.value, some h.ctr⟩).mem a
              = some ⟨posNd.value, some h.ctr⟩ := by rw [writeN_mem, if_pos rfl]
          have hm2new : (writeN h1 a ⟨posNd.value, some h.ctr⟩).mem h.ctr
              = some ⟨v, posNd.next_node⟩ := by
            rw [writeN_mem, if_neg (by omega), hmem1, if_pos rfl]
          have hagree : ∀ x, x ≠ a → x ≠ h.ctr →
              (writeN h1 a ⟨posNd.value, some h.ctr⟩).mem x = h.mem x := by
            intro x hx1 hx2
            rw [writeN_mem, if_neg hx1, hmem1, if_neg hx2]
          rcases List.mem_cons.mp hmem with rfl | hmemD
          · -- inserting after the sentinel: like PushFront
            have hq2 : sentNd = posNd := Option.some_inj.mp (hmd.symm.trans hma)
            subst hq2
            have hch2 : chainAddrs (writeN h1 D.sent ⟨sentNd.value, some h.ctr⟩)
                sentNd.next_node D.size_ = some asD := by
              refine chainAddrs_congr hch ?_
              intro x hx
              have hxb := hbD x (List.mem_cons_of_mem _ hx)
              refine hagree x ?_ (by omega)
              intro hEq
              subst hEq
              exact (List.nodup_cons.mp hndD).1 hx
            refine ⟨h.ctr :: asD, ⟨?_, ?_, ?_, ?_⟩, ?_, ?_, ?_⟩
            · unfold contAddrs
              simp only [hm2pos]
              rw [chainAddrs_succ_some hm2new]
              simp [hch2]
            · show (h.ctr :: asD).length = D.size_ + 1
              simp [hlenD]
            · show (D.sent :: h.ctr :: asD).Nodup
              refine List.nodup_cons.mpr ⟨?_, List.nodup_cons.mpr ⟨?_,
                (List.nodup_cons.mp hndD).2⟩⟩
              · intro hmem2
                rcases List.mem_cons.mp hmem2 with hEq | hmem3
                · omega
                · exact (List.nodup_cons.mp hndD).1 hmem3
              · intro hmem2
                have := hbD _ (List.mem_cons_of_mem _ hmem2)
                omega
            · intro x hx
              rw [hwctr]
              rcases List.mem_cons.mp hx with rfl | hx2
              · show D.sent < h.ctr + 1
                omega
              · rcases List.mem_cons.mp hx2 with rfl | hx3
                · omega
                · have := hbD x (List.mem_cons_of_mem _ hx3)
                  omega
            · intro x hx
              rcases List.mem_cons.mp hx with rfl | hx2
              · exact Or.inl (by simp)
              · rcases List.mem_cons.mp hx2 with rfl | hx3
                · exact Or.inr (le_refl _)
                · exact Or.inl (List.mem_cons_of_mem _ hx3)
            · rw [hwctr]
              omega
            · intro x hx hnmem
              refine hagree x ?_ (by omega)
              intro hEq
              subst hEq
              exact hnmem (List.mem_cons_self _ _)
          · -- inserting after a real cell a in the middle of the chain
            have haD : a ≠ D.sent := by
              intro hEq
              exact (List.nodup_cons.mp hndD).1 (hEq ▸ hmemD)
            rcases mem_split_addr hmemD with ⟨l1, l2, rfl⟩
            have hctrNot : h.ctr ∉ l1 ++ a :: l2 := by
              intro hm
              have := hbD _ (List.mem_cons_of_mem _ hm)
              omega
            have hsplice := chainAddrs_splice hma hm2pos rfl hm2new rfl hagree l1 hch
              (List.nodup_cons.mp hndD).2 hctrNot
            have hm2sent : (writeN h1 a ⟨posNd.value, some h.ctr⟩).mem D.sent
                = some sentNd := by
              rw [hagree D.sent (Ne.symm haD) (by omega), hmd]
            have hmemDec : ∀ x, x ∈ l1 ++ a :: h.ctr :: l2 →
                x = h.ctr ∨ x ∈ l1 ++ a :: l2 := by
              intro x hx
              simp only [List.mem_append, List.mem_cons] at hx ⊢
              tauto
            refine ⟨l1 ++ a :: h.ctr :: l2, ⟨?_, ?_, ?_, ?_⟩, ?_, ?_, ?_⟩
            · unfold contAddrs
              simp only [hm2sent]
              exact hsplice
            · show (l1 ++ a :: h.ctr :: l2).length = D.size_ + 1
              have : (l1 ++ a :: l2).length = D.size_ := hlenD
              simp at this ⊢
              omega
            · show (D.sent :: (l1 ++ a :: h.ctr :: l2)).Nodup
              refine List.nodup_cons.mpr ⟨?_, chainAddrs_nodup hsplice⟩
              intro hmem2
              rcases hmemDec _ hmem2 with hEq | hmem3
              · omega
              · exact (List.nodup_cons.mp hndD).1 hmem3
            · intro x hx
              rw [hwctr]
              rcases List.mem_cons.mp hx with rfl | hx2
              · show D.sent < h.ctr + 1
                omega
              · rcases hmemDec _ hx2 with rfl | hmem3
                · omega
                · have := hbD x (List.mem_cons_of_mem _ hmem3)
                  omega
            · intro x hx
              rcases List.mem_cons.mp hx with rfl | hx2
              · exact Or.inl (by simp)
              · rcases hmemDec _ hx2 with rfl | hmem3
                · exact Or.inr (le_refl _)
                · exact Or.inl (List.mem_cons_of_mem _ hmem3)
            · rw [hwctr]
              omega
            · intro x hx hnmem
              refine hagree x ?_ (by omega)
              intro hEq
              subst hEq
              exact hnmem (List.mem_cons_of_mem _ hmemD)

end SLHeap

namespace SLHeap

variable {α : Type}

theorem eraseAfterH_shape {h h2 : Heap α} {D D2 : SLLH} {pos c : Option Nat}
    {asD : List Nat} {a : Nat}
    (hokD : okCont h D asD) (hpos : pos = some a) (hmem : a ∈ D.sent :: asD)
    (hop : eraseAfterH h D pos = .ok (h2, D2, c)) :
    ∃ asD2, okCont h2 D2 asD2 ∧
      (∀ x ∈ D2.sent :: asD2, x ∈ D.sent :: asD ∨ h.ctr ≤ x) ∧ h.ctr ≤ h2.ctr ∧
      (∀ x, x < h.ctr → x ∉ D.sent :: asD → h2.mem x = h.mem x) := by
  rcases hokD with ⟨hcaD, hlenD, hndD, hbD⟩
  rcases contAddrs_elim hcaD with ⟨sentNd, hmd, hch⟩
  have hDs : D.sent < h.ctr := hbD _ (by simp)
  have hab : a < h.ctr := hbD _ hmem
  rw [hpos] at hop
  unfold eraseAfterH at hop
  split at hop
  · -- empty container: the guard skips the erase, nothing changes
    split at hop
    · next heq => exact absurd heq (by simp)
    · next posA heq =>
      rw [Option.some_inj] at heq
      subst heq
      split at hop
      · simp at hop
      · next posNd hma =>
        rw [Except.ok.injEq, Prod.mk.injEq, Prod.mk.injEq] at hop
        obtain ⟨rfl, rfl, rfl⟩ := hop
        exact ⟨asD, ⟨hcaD, hlenD, hndD, hbD⟩, fun x hx => Or.inl hx, le_refl _,
          fun x _ _ => rfl⟩
  · split at hop
    · next heq => exact absurd heq (by simp)
    · next posA heq =>
      rw [Option.some_inj] at heq
      subst heq
      split at hop
      · simp at hop
      · next posNd hma =>
        split at hop
        · simp at hop
        · next tmp hnx =>
          split at hop
          · simp at hop
          · next tmpNd hmt =>
            split at hop
            · simp at hop
            · next posNd2 hm2 =>
              rw [Except.ok.injEq, Prod.mk.injEq, Prod.mk.injEq] at hop
              obtain ⟨rfl, rfl, rfl⟩ := hop
              rcases List.mem_cons.mp hmem with rfl | hmemD
              · -- erasing the first cell: pos is the sentinel, like PopFront
                have hq : sentNd = posNd := Option.some_inj.mp (hmd.symm.trans hma)
                subst hq
                cases asD with
                | nil =>
                  have := chainAddrs_start_nil hch
                  rw [hnx] at this
                  simp at this
                | cons b rest =>
                  rcases chainAddrs_start_cons hch with ⟨hb, f2, nd2, hf, hmb, hch2⟩
                  rw [hnx] at hb
                  rw [Option.some_inj] at hb
                  subst hb
                  have hndq : tmpNd = nd2 := Option.some_inj.mp (hmt.symm.trans hmb)
                  subst hndq
                  have htmpD : tmp ∈ tmp :: rest := by simp
                  have htmps : tmp ≠ D.sent := by
                    intro hEq
                    exact (List.nodup_cons.mp hndD).1 (hEq ▸ htmpD)
                  have hm2sent : (freeN (writeN h D.sent ⟨sentNd.value, tmpNd.next_node⟩)
                      tmp).mem D.sent = some ⟨sentNd.value, tmpNd.next_node⟩ := by
                    rw [freeN_mem, if_neg (Ne.symm htmps), writeN_mem, if_pos rfl]
                  have hch3 : chainAddrs (freeN (writeN h D.sent
                      ⟨sentNd.value, tmpNd.next_node⟩) tmp) tmpNd.next_node f2
                      = some rest := by
                    refine chainAddrs_congr hch2 ?_
                    intro x hx
                    have hxs : x ≠ D.sent := by
                      intro hEq
                      exact (List.nodup_cons.mp hndD).1 (hEq ▸ List.mem_cons_of_mem _ hx)
                    have hxt : x ≠ tmp := by
                      intro hEq
                      exact (List.nodup_cons.mp (List.nodup_cons.mp hndD).2).1 (hEq ▸ hx)
                    rw [freeN_mem, if_neg hxt, writeN_mem, if_neg hxs]
                  refine ⟨rest, ⟨?_, ?_, ?_, ?_⟩, ?_, le_refl _, ?_⟩
                  · unfold contAddrs
                    simp only [hm2sent]
                    refine chainAddrs_mono hch3 ?_
                    show f2 ≤ D.size_ - 1
                    omega
                  · show rest.length = D.size_ - 1
                    have hq : (tmp :: rest).length = D.size_ := hlenD
                    simp at hq
                    omega
                  · show (D.sent :: rest).Nodup
                    refine List.nodup_cons.mpr ⟨?_, ?_⟩
                    · intro hmem2
                      exact (List.nodup_cons.mp hndD).1 (List.mem_cons_of_mem _ hmem2)
                    · exact (List.nodup_cons.mp (List.nodup_cons.mp hndD).2).2
                  · intro x hx
                    rcases List.mem_cons.mp hx with rfl | hx2
                    · show D.sent < (freeN (writeN h D.sent
                        ⟨sentNd.value, tmpNd.next_node⟩) tmp).ctr
                      exact hDs
                    · exact hbD x (List.mem_cons_of_mem _ (List.mem_cons_of_mem _ hx2))
                  · intro x hx
                    rcases List.mem_cons.mp hx with rfl | hx2
                    · exact Or.inl (by simp)
                    · exact Or.inl (List.mem_cons_of_mem _ (List.mem_cons_of_mem _ hx2))
                  · intro x hx hnmem
                    have hxs : x ≠ D.sent := by
                      intro hEq
                      subst hEq
                      exact hnmem (List.mem_cons_self _ _)
                    have hxt : x ≠ tmp := by
                      intro hEq
                      subst hEq
                      exact hnmem (List.mem_cons_of_mem _ (List.mem_cons_self _ _))
                    rw [freeN_mem, if_neg hxt, writeN_mem, if_neg hxs]
              · -- erasing the successor of a real cell a
                have haD : a ≠ D.sent := by
                  intro hEq
                  exact (List.nodup_cons.mp hndD).1 (hEq ▸ hmemD)
                rcases mem_split_addr hmemD with ⟨l1, l2x, rfl⟩
                rcases chainAddrs_split l1 hch with ⟨ndx, f3, hndx, hndxNx, hchx⟩
                have hq : posNd = ndx := Option.some_inj.mp (hma.symm.trans hndx)
                subst hq
                cases l2x with
                | nil =>
                  rw [hnx] at hndxNx
                  simp at hndxNx
                | cons b l2 =>
                  have hbt : tmp = b := by
                    rw [hnx] at hndxNx
                    exact Option.some_inj.mp hndxNx
                  subst hbt
                  have htmpD : tmp ∈ l1 ++ a :: tmp :: l2 := by simp
                  have hndD1 : (l1 ++ a :: tmp :: l2).Nodup := (List.nodup_cons.mp hndD).2
                  have htmps : tmp ≠ D.sent := by
                    intro hEq
                    exact (List.nodup_cons.mp hndD).1 (hEq ▸ htmpD)
                  have hat : a ≠ tmp := by
                    intro hEq
                    have : ¬ (l1 ++ a :: tmp :: l2).Nodup := by
                      rw [hEq]
                      intro hcon
                      have := (List.nodup_cons.mp (List.Nodup.of_append_right hcon)).1
                      exact this (List.mem_cons_self _ _)
                    exact this hndD1
                  have hm2pos : (freeN (writeN h a ⟨posNd.value, tmpNd.next_node⟩)
                      tmp).mem a = some ⟨posNd.value, tmpNd.next_node⟩ := by
                    rw [freeN_mem, if_neg hat, writeN_mem, if_pos rfl]
                  have hagree : ∀ x, x ≠ a → x ≠ tmp →
                      (freeN (writeN h a ⟨posNd.value, tmpNd.next_node⟩) tmp).mem x
                      = h.mem x := by
                    intro x hx1 hx2
                    rw [freeN_mem, if_neg hx2, writeN_mem, if_neg hx1]
                  have hm2sent : (freeN (writeN h a ⟨posNd.value, tmpNd.next_node⟩)
                      tmp).mem D.sent = some sentNd := by
                    rw [hagree D.sent (Ne.symm haD) (Ne.symm htmps), hmd]
                  have hremove := chainAddrs_remove hma hmt hm2pos rfl hagree l1 hch hndD1
                  have hmemDec : ∀ x, x ∈ l1 ++ a :: l2 → x ∈ l1 ++ a :: tmp :: l2 := by
                    intro x hx
                    simp only [List.mem_append, List.mem_cons] at hx ⊢
                    tauto
                  refine ⟨l1 ++ a :: l2, ⟨?_, ?_, ?_, ?_⟩, ?_, le_refl _, ?_⟩
                  · unfold contAddrs
                    simp only [hm2sent]
                    refine chainAddrs_mono (chainAddrs_exact hremove) ?_
                    show (l1 ++ a :: l2).length ≤ D.size_ - 1
                    have hq : (l1 ++ a :: tmp :: l2).length = D.size_ := hlenD
                    simp at hq ⊢
                    omega
                  · show (l1 ++ a :: l2).length = D.size_ - 1
                    have hq : (l1 ++ a :: tmp :: l2).length = D.size_ := hlenD
                    simp at hq ⊢
                    omega
                  · show (D.sent :: (l1 ++ a :: l2)).Nodup
                    refine List.nodup_cons.mpr ⟨?_, chainAddrs_nodup hremove⟩
                    intro hmem2
                    exact (List.nodup_cons.mp hndD).1 (hmemDec _ hmem2)
                  · intro x hx
                    rcases List.mem_cons.mp hx with rfl | hx2
                    · show D.sent < (freeN (writeN h a ⟨posNd.value, tmpNd.next_node⟩)
                        tmp).ctr
                      exact hDs
                    · exact hbD x (List.mem_cons_of_mem _ (hmemDec _ hx2))
                  · intro x hx
                    rcases List.mem_cons.mp hx with rfl | hx2
                    · exact Or.inl (by simp)
                    · exact Or.inl (List.mem_cons_of_mem _ (hmemDec _ hx2))
                  · intro x hx hnmem
                    have hxa : x ≠ a := by
                      intro hEq
                      subst hEq
                      exact hnmem (List.mem_cons_of_mem _ hmemD)
                    have hxt : x ≠ tmp := by
                      intro hEq
                      subst hEq
                      exact hnmem (List.mem_cons_of_mem _ htmpD)
                    exact hagree x hxa hxt

end SLHeap

namespace SLHeap

variable {α : Type}

theorem mutStep_preserve {C : SLLH} {p q : Heap α × SLLH}
    (hsep : sepInv p.1 C p.2) (hstep : MutStep p q) :
    sepInv q.1 C q.2 ∧ toSeq q.1 C = toSeq p.1 C := by
  cases hstep with
  | push v hop =>
    rcases hsep with ⟨asC, asD, hokC, hokD, hdisj⟩
    rcases pushFrontH_shape hokD hop with ⟨asD2, hokD2, hsub, hctr, hfr⟩
    rcases hokC with ⟨hcaC, hlenC, hndC, hbC⟩
    have hagree : ∀ a ∈ C.sent :: asC, _ := fun a ha => hfr a (hbC a ha) (hdisj a ha)
    rcases toSeq_congr hcaC hagree with ⟨hcaC2, hts⟩
    refine ⟨⟨asC, asD2, ⟨hcaC2, hlenC, hndC,
      fun a ha => lt_of_lt_of_le (hbC a ha) hctr⟩, hokD2, ?_⟩, hts⟩
    intro x hx hmem2
    rcases hsub x hmem2 with h1 | h1
    · exact hdisj x hx h1
    · have := hbC x hx
      omega
  | pop hop =>
    rcases hsep with ⟨asC, asD, hokC, hokD, hdisj⟩
    rcases popFrontH_shape hokD hop with ⟨asD2, hokD2, hsub, hctr, hfr⟩
    rcases hokC with ⟨hcaC, hlenC, hndC, hbC⟩
    have hagree : ∀ a ∈ C.sent :: asC, _ := fun a ha => hfr a (hbC a ha) (hdisj a ha)
    rcases toSeq_congr hcaC hagree with ⟨hcaC2, hts⟩
    refine ⟨⟨asC, asD2, ⟨hcaC2, hlenC, hndC,
      fun a ha => lt_of_lt_of_le (hbC a ha) hctr⟩, hokD2, ?_⟩, hts⟩
    intro x hx hmem2
    rcases hsub x hmem2 with h1 | h1
    · exact hdisj x hx h1
    · have := hbC x hx
      omega
  | ins v hpos hop =>
    rcases hsep with ⟨asC, asD, hokC, hokD, hdisj⟩
    rcases hpos with ⟨as0, a0, hca0, hpos0, hmem0⟩
    have has0 : as0 = asD := Option.some_inj.mp (hca0.symm.trans hokD.1)
    subst has0
    rcases insertAfterH_shape hokD hpos0 hmem0 hop with ⟨asD2, hokD2, hsub, hctr, hfr⟩
    rcases hokC with ⟨hcaC, hlenC, hndC, hbC⟩
    have hagree : ∀ a ∈ C.sent :: asC, _ := fun a ha => hfr a (hbC a ha) (hdisj a ha)
    rcases toSeq_congr hcaC hagree with ⟨hcaC2, hts⟩
    refine ⟨⟨asC, asD2, ⟨hcaC2, hlenC, hndC,
      fun a ha => lt_of_lt_of_le (hbC a ha) hctr⟩, hokD2, ?_⟩, hts⟩
    intro x hx hmem2
    rcases hsub x hmem2 with h1 | h1
    · exact hdisj x hx h1
    · have := hbC x hx
      omega
  | er hpos hop =>
    rcases hsep with ⟨asC, asD, hokC, hokD, hdisj⟩
    rcases hpos with ⟨as0, a0, hca0, hpos0, hmem0, _⟩
    have has0 : as0 = asD := Option.some_inj.mp (hca0.symm.trans hokD.1)
    subst has0
    rcases eraseAfterH_shape hokD hpos0 hmem0 hop with ⟨asD2, hokD2, hsub, hctr, hfr⟩
    rcases hokC with ⟨hcaC, hlenC, hndC, hbC⟩
    have hagree : ∀ a ∈ C.sent :: asC, _ := fun a ha => hfr a (hbC a ha) (hdisj a ha)
    rcases toSeq_congr hcaC hagree with ⟨hcaC2, hts⟩
    refine ⟨⟨asC, asD2, ⟨hcaC2, hlenC, hndC,
      fun a ha => lt_of_lt_of_le (hbC a ha) hctr⟩, hokD2, ?_⟩, hts⟩
    intro x hx hmem2
    rcases hsub x hmem2 with h1 | h1
    · exact hdisj x hx h1
    · have := hbC x hx
      omega

theorem mutRTC_preserve {C : SLLH} {p q : Heap α × SLLH}
    (hsep : sepInv p.1 C p.2)
    (hrtc : Relation.ReflTransGen MutStep p q) :
    sepInv q.1 C q.2 ∧ toSeq q.1 C = toSeq p.1 C := by
  induction hrtc with
  | refl => exact ⟨hsep, rfl⟩
  | tail hab hbc ih =>
    rcases mutStep_preserve ih.1 hbc with ⟨hs3, ht3⟩
    exact ⟨hs3, ht3.trans ih.2⟩

end SLHeap

section ClaimC3

open SLHeap

/-- C3: round-trip copy.  For every well-formed container `C`, the copy
constructor produces a container `D` whose element sequence equals `C`'s
(`D == C` in the sense of `operator==`, which compares exactly these value
ranges, and the cached sizes agree) without disturbing `C`, and `D` is an
independent chain at a distinct object address: after any sequence of
`PushFront` / `PopFront` / `InsertAfter` / `EraseAfter` mutations of `D`
(each under its stated precondition, with position cursors belonging to
`D`), `C`'s observable element sequence — and `C`'s struct, hence
`GetSize()` — is completely unchanged. -/
theorem C3_copy_roundtrip :
    ∀ (α : Type) [Inhabited α] (h : Heap α) (C : SLLH) (asC : List Nat),
      okCont h C asC → asC.length ≤ h.budget →
      ∃ h1 D, copyCtorH h C = .ok (h1, D) ∧
        D.sent ≠ C.sent ∧ D.size_ = C.size_ ∧
        toSeq h1 D = toSeq h1 C ∧ toSeq h1 C = toSeq h C ∧
        ∀ (h2 : Heap α) (D2 : SLLH),
          Relation.ReflTransGen MutStep (h1, D) (h2, D2) →
          toSeq h2 C = toSeq h C := by
  intro α inst h C asC hok hbud
  rcases copyCtorH_ok hok hbud with
    ⟨h1, D, asD, heq, hDsent, hDsize, hokD, hfresh, hlow, hctr, hseqC, hseqD⟩
  rcases hok with ⟨hca, hlen, hnd, hb⟩
  have hCs : C.sent < h.ctr := hb _ (by simp)
  refine ⟨h1, D, heq, ?_, hDsize, ?_, hseqC, ?_⟩
  · rw [hDsent]
    omega
  · rw [hseqD, hseqC]
  · intro h2 D2 hrtc
    have hsep : sepInv h1 C D := by
      refine ⟨asC, asD, ?_, hokD, ?_⟩
      · rcases toSeq_congr hca (fun a ha => hlow a (hb a ha)) with ⟨hca1, _⟩
        exact ⟨hca1, hlen, hnd, fun a ha => lt_of_lt_of_le (hb a ha) (le_of_lt hctr)⟩
      · intro a ha hmem
        have h5 := hfresh _ hmem
        have := hb a ha
        omega
    have hres := mutRTC_preserve (p := (h1, D)) (q := (h2, D2)) hsep hrtc
    exact hres.2.trans hseqC

/-- Witness for C3: copying the concrete two-element container in `heapC3`
(values 10, 20) yields an equal, independently mutable container. -/
theorem C3_copy_roundtrip_w :
    okCont heapC3 contC3 [1, 2] ∧ ([1, 2] : List Nat).length ≤ heapC3.budget ∧
      (∃ h1 D, copyCtorH heapC3 contC3 = .ok (h1, D) ∧
        D.sent ≠ contC3.sent ∧ D.size_ = contC3.size_ ∧
        toSeq h1 D = toSeq h1 contC3 ∧ toSeq h1 contC3 = toSeq heapC3 contC3 ∧
        ∀ (h2 : Heap Nat) (D2 : SLLH),
          Relation.ReflTransGen MutStep (h1, D) (h2, D2) →
          toSeq h2 contC3 = toSeq heapC3 contC3) :=
  ⟨by unfold okCont; decide, by decide,
    C3_copy_roundtrip Nat heapC3 contC3 [1, 2] (by unfold okCont; decide) (by decide)⟩

end ClaimC3
